import Mathlib

/-
Formal model of `src/aish_agent/planner_node.py` (the `aish` repository).

The file models, as executable Lean definitions:
  * Python values produced by the `json` module (`JValue`),
  * the behaviour of `json.loads` and `json.dumps` (`loads`, `dumps`),
  * the Python string operations used by the planner
    (`strip`, `startswith`, `find`, `rfind`, slicing, the `in` operator),
  * the methods `PlannerNode._parse_response`, `PlannerNode.plan` and
    `PlannerNode.__call__`, with Python exception flow made explicit via
    `Except`.
The LLM client is an external collaborator and is modelled as an explicit
parameter: an `Except PyExc LLMResp` value describing what `self.llm.invoke`
does on the one call the planner makes (either raising an exception or
returning a response object).  Debug `print` statements are side effects with
no influence on returned values and are omitted.
-/

namespace Aish

mutual
/-- A Python value as produced by the `json` module: `None`, `bool`, a number
(modelled exactly as decimal mantissa and exponent, value `m * 10 ^ e`;
integers have `e = 0`), `str`, `list` and `dict` (kept in insertion order). -/
inductive JValue where
  | null : JValue
  | bool (b : Bool) : JValue
  | num (m e : Int) : JValue
  | str (s : String) : JValue
  | arr (xs : JList) : JValue
  | obj (kvs : JMembers) : JValue

/-- A Python list of JSON values. -/
inductive JList where
  | nil : JList
  | cons (v : JValue) (tl : JList) : JList

/-- A Python dict with string keys, kept in insertion order. -/
inductive JMembers where
  | nil : JMembers
  | cons (k : String) (v : JValue) (tl : JMembers) : JMembers
end

/-- Build a `JList` from a Lean list literal. -/
def mkJList : List JValue → JList
  | [] => JList.nil
  | v :: tl => JList.cons v (mkJList tl)

/-- Build a `JMembers` from a Lean list literal. -/
def mkJMembers : List (String × JValue) → JMembers
  | [] => JMembers.nil
  | (k, v) :: tl => JMembers.cons k v (mkJMembers tl)

/-- Build a Python list value from a Lean list literal. -/
def mkArr (xs : List JValue) : JValue := JValue.arr (mkJList xs)

/-- Build a Python dict value from a Lean list literal. -/
def mkObj (kvs : List (String × JValue)) : JValue := JValue.obj (mkJMembers kvs)

/-! ### Character classes and basic Python string operations.
Python strings are modelled as `List Char` internally (`String.data`). -/

/-- The whitespace accepted between JSON tokens by `json.loads`
(space, tab, newline, carriage return). -/
def jsonWsChars : List Char := [' ', '\t', '\n', '\r']

/-- Whitespace test of the JSON grammar. -/
def jsonWs (c : Char) : Bool := decide (c ∈ jsonWsChars)

/-- The characters stripped by Python `str.strip()`: the code points for
which `str.isspace()` holds. -/
def pyWsChars : List Char :=
  [
   ' ', '\t', '\n', '\r', '\x0b', '\x0c',
   '\x1c', '\x1d', '\x1e', '\x1f', '\x85', '\xa0',
   ' ', ' ', ' ', ' ', ' ', ' ',
   ' ', ' ', ' ', ' ', ' ', ' ',
   ' ', ' ', ' ', ' ', '　']

/-- Python `str.isspace()` on one character. -/
def pyWs (c : Char) : Bool := decide (c ∈ pyWsChars)

/-- Decimal digit test. -/
def isDig (c : Char) : Bool := '0' ≤ c && c ≤ '9'

/-- Skip JSON whitespace. -/
def skipWs (l : List Char) : List Char := l.dropWhile jsonWs

/-- Python `str.strip()` on the character list: drop `str.isspace()`
characters from both ends. -/
def pyStripL (l : List Char) : List Char :=
  (((l.dropWhile pyWs).reverse.dropWhile pyWs).reverse)

/-- Python `str.strip()`. -/
def pyStrip (s : String) : String := String.mk (pyStripL s.data)

/-- Python `str.find(c)` for a one-character needle: index of the first
occurrence, `-1` if absent. -/
def pyFind : List Char → Char → Int
  | [], _ => -1
  | a :: tl, c =>
    if a = c then 0
    else
      let r := pyFind tl c
      if r = -1 then -1 else r + 1

/-- Python `str.rfind(c)` for a one-character needle: index of the last
occurrence, `-1` if absent. -/
def pyRfind : List Char → Char → Int
  | [], _ => -1
  | a :: tl, c =>
    let r := pyRfind tl c
    if r = -1 then (if a = c then 0 else -1) else r + 1

/-- Python slicing `s[a:b]` for `0 ≤ a` and `0 ≤ b` (the only slices the
planner takes). -/
def pySliceL (l : List Char) (a b : Int) : List Char :=
  (l.drop a.toNat).take (b.toNat - a.toNat)

/-- Does the list start with the given one? (Python `str.startswith` helper.) -/
def startsL : List Char → List Char → Bool
  | _, [] => true
  | [], _ :: _ => false
  | a :: tl, b :: tlb => a = b && startsL tl tlb

/-- Python `needle in hay` for strings: substring containment. -/
def pySubstr (needle : List Char) : List Char → Bool
  | [] => startsL [] needle
  | c :: tl => startsL (c :: tl) needle || pySubstr needle tl

/-! ### The JSON parser: a faithful executable model of `json.loads`.
Nested values are parsed with a fuel argument so that every definition is
structurally recursive and computes by `rfl`; `loads` passes fuel
`length + 1`, which theorem `fuelV_le_dump` shows is always enough for a
serialized value.  Divergences from CPython kept deliberately small and
irrelevant to the planner: the constants `NaN`/`Infinity`/`-Infinity` and
lone-surrogate `\uXXXX` escapes are rejected. -/

/-- Value of a hexadecimal digit. -/
def hexVal (c : Char) : Option Nat :=
  if '0' ≤ c && c ≤ '9' then some (c.toNat - 48)
  else if 'a' ≤ c && c ≤ 'f' then some (c.toNat - 87)
  else if 'A' ≤ c && c ≤ 'F' then some (c.toNat - 55)
  else none

/-- Numeric value of a list of decimal digits. -/
def digitsVal (ds : List Char) : Nat :=
  ds.foldl (fun a c => a * 10 + (c.toNat - 48)) 0

/-- Parse the body of a JSON string literal (the opening quote already
consumed): returns the decoded characters and the rest of the input after
the closing quote.  Handles the escape sequences of the JSON grammar,
including surrogate pairs; raw control characters are rejected as in
CPython strict mode. -/
def pStrChars : List Char → Option (List Char × List Char)
  | [] => none
  | '"' :: r => some ([], r)
  | '\\' :: '"' :: r => (pStrChars r).map (fun p => ('"' :: p.1, p.2))
  | '\\' :: '\\' :: r => (pStrChars r).map (fun p => ('\\' :: p.1, p.2))
  | '\\' :: '/' :: r => (pStrChars r).map (fun p => ('/' :: p.1, p.2))
  | '\\' :: 'b' :: r => (pStrChars r).map (fun p => ('\x08' :: p.1, p.2))
  | '\\' :: 'f' :: r => (pStrChars r).map (fun p => ('\x0c' :: p.1, p.2))
  | '\\' :: 'n' :: r => (pStrChars r).map (fun p => ('\n' :: p.1, p.2))
  | '\\' :: 'r' :: r => (pStrChars r).map (fun p => ('\r' :: p.1, p.2))
  | '\\' :: 't' :: r => (pStrChars r).map (fun p => ('\t' :: p.1, p.2))
  | '\\' :: 'u' :: h1 :: h2 :: h3 :: h4 :: r2 =>
    (match hexVal h1, hexVal h2, hexVal h3, hexVal h4 with
    | some a, some b, some c, some d =>
      let n := ((a * 16 + b) * 16 + c) * 16 + d
      if n < 0xd800 then
        (pStrChars r2).map (fun p => (Char.ofNat n :: p.1, p.2))
      else if n < 0xdc00 then
        -- high surrogate: require a low surrogate escape next
        (match r2 with
        | '\\' :: 'u' :: g1 :: g2 :: g3 :: g4 :: r3 =>
          (match hexVal g1, hexVal g2, hexVal g3, hexVal g4 with
          | some a2, some b2, some c2, some d2 =>
            let n2 := ((a2 * 16 + b2) * 16 + c2) * 16 + d2
            if 0xdc00 ≤ n2 && n2 < 0xe000 then
              let cp := 0x10000 + (n - 0xd800) * 0x400 + (n2 - 0xdc00)
              (pStrChars r3).map (fun p => (Char.ofNat cp :: p.1, p.2))
            else none
          | _, _, _, _ => none)
        | _ => none)
      else if n < 0xe000 then none
      else
        (pStrChars r2).map (fun p => (Char.ofNat n :: p.1, p.2))
    | _, _, _, _ => none)
  | '\\' :: _ => none
  | c :: r =>
    if c.toNat < 0x20 then none
    else (pStrChars r).map (fun p => (c :: p.1, p.2))

/-- Parse the optional exponent of a JSON number (the digits after `e`/`E`),
with optional sign, and assemble the final mantissa and exponent. -/
def pNumExpDigits (m fe : Int) (re : List Char) :
    Option ((Int × Int) × List Char) :=
  let p : Bool × List Char :=
    match re with
    | c :: rr =>
      if c = '-' then (true, rr)
      else if c = '+' then (false, rr)
      else (false, c :: rr)
    | [] => (false, [])
  let eds := p.2.takeWhile isDig
  if eds.isEmpty then none
  else
    let ev : Int := Int.ofNat (digitsVal eds)
    some ((m, fe + (if p.1 then -ev else ev)), p.2.dropWhile isDig)

/-- After integer and fraction digits: parse the optional exponent part and
assemble mantissa (all digits, signed) and decimal exponent. -/
def pNumExpPart (neg : Bool) (ids fds : List Char) (r : List Char) :
    Option ((Int × Int) × List Char) :=
  let mAbs : Int := Int.ofNat (digitsVal (ids ++ fds))
  let m : Int := if neg then -mAbs else mAbs
  let fe : Int := -(Int.ofNat fds.length)
  match r with
  | c :: re =>
    if c = 'e' ∨ c = 'E' then pNumExpDigits m fe re
    else some ((m, fe), c :: re)
  | [] => some ((m, fe), [])

/-- After the integer digits: parse the optional fraction (a dot must be
followed by at least one digit, else the number ends before it and the
caller fails on the leftover dot exactly as CPython does). -/
def pNumFrac (neg : Bool) (ids : List Char) (r : List Char) :
    Option ((Int × Int) × List Char) :=
  match r with
  | c :: rf =>
    if c = '.' then
      if (rf.takeWhile isDig).isEmpty then none
      else pNumExpPart neg ids (rf.takeWhile isDig) (rf.dropWhile isDig)
    else pNumExpPart neg ids [] (c :: rf)
  | [] => pNumExpPart neg ids [] []

/-- Parse the integer part of a JSON number: a single `0`, or a nonzero
digit followed by digits (no leading zeros). -/
def pNumIp (l : List Char) (neg : Bool) : Option ((Int × Int) × List Char) :=
  match l with
  | [] => none
  | c :: r =>
    if c = '0' then pNumFrac neg ['0'] r
    else if isDig c then pNumFrac neg (c :: r.takeWhile isDig) (r.dropWhile isDig)
    else none

/-- Parse a JSON number per the JSON grammar (`-? int frac? exp?`), returning
mantissa and decimal exponent. -/
def pNumber (l : List Char) : Option ((Int × Int) × List Char) :=
  match l with
  | [] => none
  | c :: r =>
    if c = '-' then pNumIp r true
    else pNumIp (c :: r) false

/-- Insert a key into a Python dict: if present, replace the value in place
(keeping the key position); otherwise append.  This is how `dict` handles the
duplicate keys `json.loads` may encounter. -/
def mInsert : JMembers → String → JValue → JMembers
  | JMembers.nil, k, v => JMembers.cons k v JMembers.nil
  | JMembers.cons k1 v1 tl, k, v =>
    if k1 = k then JMembers.cons k1 v tl
    else JMembers.cons k1 v1 (mInsert tl k v)

/-- Fold a parsed member list into a Python dict, left to right. -/
def mCollapseGo : JMembers → JMembers → JMembers
  | acc, JMembers.nil => acc
  | acc, JMembers.cons k v tl => mCollapseGo (mInsert acc k v) tl

/-- Collapse duplicate keys the way Python's `dict` does while `json.loads`
builds an object. -/
def mCollapse (ms : JMembers) : JMembers := mCollapseGo JMembers.nil ms

mutual
/-- Parse one JSON value (leading whitespace allowed), returning the value and
the unconsumed rest.  `fuel` bounds the nesting work; `loads` supplies enough
for any input that can succeed. -/
def pVal : Nat → List Char → Option (JValue × List Char)
  | 0, _ => none
  | f + 1, l =>
    match skipWs l with
    | [] => none
    | c :: r =>
      if c = '\x7b' then
        match skipWs r with
        | '\x7d' :: r2 => some (JValue.obj JMembers.nil, r2)
        | _ =>
          (pMembers f r).map (fun p => (JValue.obj (mCollapse p.1), p.2))
      else if c = '[' then
        match skipWs r with
        | ']' :: r2 => some (JValue.arr JList.nil, r2)
        | _ => (pItems f r).map (fun p => (JValue.arr p.1, p.2))
      else if c = '"' then
        (pStrChars r).map (fun p => (JValue.str (String.mk p.1), p.2))
      else if c = 't' then
        match r with
        | 'r' :: 'u' :: 'e' :: r2 => some (JValue.bool true, r2)
        | _ => none
      else if c = 'f' then
        match r with
        | 'a' :: 'l' :: 's' :: 'e' :: r2 => some (JValue.bool false, r2)
        | _ => none
      else if c = 'n' then
        match r with
        | 'u' :: 'l' :: 'l' :: r2 => some (JValue.null, r2)
        | _ => none
      else
        (pNumber (c :: r)).map (fun p => (JValue.num p.1.1 p.1.2, p.2))

/-- Parse the (nonempty) members of a JSON object, up to and including the
closing brace; duplicate keys are kept here and collapsed by the caller. -/
def pMembers : Nat → List Char → Option (JMembers × List Char)
  | 0, _ => none
  | f + 1, l =>
    match skipWs l with
    | '"' :: r =>
      match pStrChars r with
      | none => none
      | some (kcs, r1) =>
        match skipWs r1 with
        | ':' :: r2 =>
          match pVal f r2 with
          | none => none
          | some (v, r3) =>
            match skipWs r3 with
            | ',' :: r4 =>
              (pMembers f r4).map
                (fun p => (JMembers.cons (String.mk kcs) v p.1, p.2))
            | '\x7d' :: r4 =>
              some (JMembers.cons (String.mk kcs) v JMembers.nil, r4)
            | _ => none
        | _ => none
    | _ => none

/-- Parse the (nonempty) items of a JSON array, up to and including the
closing bracket. -/
def pItems : Nat → List Char → Option (JList × List Char)
  | 0, _ => none
  | f + 1, l =>
    match pVal f l with
    | none => none
    | some (v, r) =>
      match skipWs r with
      | ',' :: r2 => (pItems f r2).map (fun p => (JList.cons v p.1, p.2))
      | ']' :: r2 => some (JList.cons v JList.nil, r2)
      | _ => none
end

/-- Model of Python `json.loads`: parse one JSON document; anything but
whitespace after the value is an error (`none` models raising
`json.JSONDecodeError`). -/
def loads (s : String) : Option JValue :=
  match pVal (s.data.length + 1) s.data with
  | some (v, rest) => if skipWs rest = [] then some v else none
  | none => none

/-! ### Serialization: a model of `json.dumps` with its default separators.
Numbers are emitted from the mantissa/exponent representation (`15e-1`
instead of CPython's float repr `1.5`); integers (`e = 0`) are emitted as
CPython emits them.  Non-ASCII characters are emitted directly. -/

/-- A lowercase hexadecimal digit. -/
def toHex1 (n : Nat) : Char :=
  match n with
  | 0 => '0' | 1 => '1' | 2 => '2' | 3 => '3' | 4 => '4'
  | 5 => '5' | 6 => '6' | 7 => '7' | 8 => '8' | 9 => '9'
  | 10 => 'a' | 11 => 'b' | 12 => 'c' | 13 => 'd' | 14 => 'e' | 15 => 'f'
  | _ => '0'

/-- Escape one character of a JSON string the way `json.dumps` does. -/
def escChar (c : Char) : List Char :=
  if c = '"' then ['\\', '"']
  else if c = '\\' then ['\\', '\\']
  else if c = '\x08' then ['\\', 'b']
  else if c = '\x0c' then ['\\', 'f']
  else if c = '\n' then ['\\', 'n']
  else if c = '\r' then ['\\', 'r']
  else if c = '\t' then ['\\', 't']
  else if c.toNat < 0x20 then
    ['\\', 'u', '0', '0', toHex1 (c.toNat / 16), toHex1 (c.toNat % 16)]
  else [c]

/-- Escape the body of a JSON string. -/
def escBody : List Char → List Char
  | [] => []
  | c :: tl => escChar c ++ escBody tl

/-- Serialize a string literal, quotes included. -/
def dumpStr (s : String) : List Char := '"' :: (escBody s.data ++ ['"'])

/-- Decimal digits of a natural number (fuel-based so that it computes by
`rfl`; fuel `n + 1` always suffices). -/
def natCharsGo : Nat → Nat → List Char
  | 0, _ => []
  | f + 1, n =>
    if n < 10 then [Char.ofNat (48 + n)]
    else natCharsGo f (n / 10) ++ [Char.ofNat (48 + n % 10)]

/-- Decimal digits of a natural number. -/
def natChars (n : Nat) : List Char := natCharsGo (n + 1) n

/-- Decimal representation of an integer. -/
def intChars (i : Int) : List Char :=
  if i < 0 then '-' :: natChars i.natAbs else natChars i.toNat

/-- Serialize a number from mantissa and exponent. -/
def dumpNum (m e : Int) : List Char :=
  if e = 0 then intChars m else intChars m ++ 'e' :: intChars e

mutual
/-- Serialize a JSON value with the default `json.dumps` separators. -/
def dumpV : JValue → List Char
  | JValue.null => ['n', 'u', 'l', 'l']
  | JValue.bool true => ['t', 'r', 'u', 'e']
  | JValue.bool false => ['f', 'a', 'l', 's', 'e']
  | JValue.num m e => dumpNum m e
  | JValue.str s => dumpStr s
  | JValue.arr JList.nil => ['[', ']']
  | JValue.arr (JList.cons v tl) => '[' :: (dumpV v ++ dumpL tl ++ [']'])
  | JValue.obj JMembers.nil => ['\x7b', '\x7d']
  | JValue.obj (JMembers.cons k v tl) =>
    '\x7b' :: (dumpStr k ++ ':' :: ' ' :: (dumpV v ++ dumpM tl ++ ['\x7d']))

/-- Serialize the remaining items of a nonempty list (each behind `", "`). -/
def dumpL : JList → List Char
  | JList.nil => []
  | JList.cons v tl => ',' :: ' ' :: (dumpV v ++ dumpL tl)

/-- Serialize the remaining members of a nonempty dict (each behind `", "`). -/
def dumpM : JMembers → List Char
  | JMembers.nil => []
  | JMembers.cons k v tl =>
    ',' :: ' ' :: (dumpStr k ++ ':' :: ' ' :: (dumpV v ++ dumpM tl))
end

/-- Model of Python `json.dumps` (default separators). -/
def dumps (v : JValue) : String := String.mk (dumpV v)

/-! ### Well-formedness and fuel accounting, used for the round-trip
theorem about `loads` and `dumps`. -/

/-- Does the dict have the key? (Also Python `key in dict`.) -/
def mHasKey : JMembers → String → Bool
  | JMembers.nil, _ => false
  | JMembers.cons k1 _ tl, k => k1 = k || mHasKey tl k

/-- Python dict lookup, `none` for a missing key. -/
def mFind : JMembers → String → Option JValue
  | JMembers.nil, _ => none
  | JMembers.cons k1 v1 tl, k => if k1 = k then some v1 else mFind tl k

mutual
/-- Every dict reachable inside the value has pairwise distinct keys; true of
everything `json.loads` can produce. -/
def wfV : JValue → Bool
  | JValue.arr xs => wfL xs
  | JValue.obj ms => wfM ms
  | _ => true

/-- `wfV` on every element. -/
def wfL : JList → Bool
  | JList.nil => true
  | JList.cons v tl => wfV v && wfL tl

/-- Distinct keys at this level and `wfV` on every value. -/
def wfM : JMembers → Bool
  | JMembers.nil => true
  | JMembers.cons k v tl => !mHasKey tl k && wfV v && wfM tl
end

mutual
/-- Fuel sufficient for `pVal` to parse the serialization of the value. -/
def fuelV : JValue → Nat
  | JValue.arr JList.nil => 1
  | JValue.arr (JList.cons v tl) => 1 + fuelL (JList.cons v tl)
  | JValue.obj JMembers.nil => 1
  | JValue.obj (JMembers.cons k v tl) => 1 + fuelM (JMembers.cons k v tl)
  | _ => 1

/-- Fuel for `pItems`. -/
def fuelL : JList → Nat
  | JList.nil => 0
  | JList.cons v tl => 1 + fuelV v + fuelL tl

/-- Fuel for `pMembers`. -/
def fuelM : JMembers → Nat
  | JMembers.nil => 0
  | JMembers.cons _ v tl => 1 + fuelV v + fuelM tl
end

/-! ### The planner node.  Python exceptions are explicit: a `PyExc` error
value is a raised exception, `Except.ok` a normal return. -/

/-- The Python exceptions that can arise in `PlannerNode`:
`json.JSONDecodeError` from `json.loads`, `ValueError` from the plan
validation, `TypeError` from `in` on a non-container, and whatever
exception the LLM client raises. -/
inductive PyExc where
  | jsonDecodeError : PyExc
  | valueError (msg : String) : PyExc
  | typeError (msg : String) : PyExc
  | clientError (msg : String) : PyExc

/-- Python `str(e)` for the exceptions above (for `jsonDecodeError` the
message never reaches `plan`'s handler, see `parse_response_never_raises`). -/
def excStr : PyExc → String
  | PyExc.jsonDecodeError => "Expecting value: line 1 column 1 (char 0)"
  | PyExc.valueError m => m
  | PyExc.typeError m => m
  | PyExc.clientError m => m

/-- The LLM client's response object: either a message object carrying
`.content` (chat models) or a plain value whose `str(...)` is taken
(`Ollama` returns a plain string).  Message content is modelled as the text
the planner extracts from it. -/
inductive LLMResp where
  | withContent (content : String) : LLMResp
  | plain (text : String) : LLMResp

/-- Lines 206-209 of `planner_node.py`: `response.content` if the response
has a `content` attribute, else `str(response)`. -/
def getContent : LLMResp → String
  | LLMResp.withContent c => c
  | LLMResp.plain t => t

/-- Python `s.startswith(c)` for a single-character needle. -/
def pyStartsWith (s : String) (c : Char) : Bool :=
  match s.data with
  | c1 :: _ => c1 = c
  | [] => false

/-- The two hand-built fallback plans of `_parse_response`, lines 146-159
and 167-180: identical except for the warning string. -/
def parseFallback (response : String) (warning : String) : JValue :=
  mkObj [("plan", mkArr [mkObj [
      ("step", JValue.num 1 0),
      ("description", JValue.str "Execute user request"),
      ("task", JValue.str (pyStrip response)),
      ("category", JValue.str "other")]]),
    ("summary", JValue.str "Execute user request"),
    ("estimated_time", JValue.str "Unknown"),
    ("requires_sudo", JValue.bool false),
    ("warnings", mkArr [JValue.str warning])]

/-- `PlannerNode._parse_response`, lines 122-180.  The `try` body either
returns a value or raises `json.JSONDecodeError` from one of the two
`json.loads` calls; the `except json.JSONDecodeError` handler turns that
into the fallback plan.  Any other exception would propagate (none exists). -/
def parse_response (response : String) : Except PyExc JValue :=
  let body : Except PyExc JValue :=
    if pyStartsWith (pyStrip response) '\x7b' then
      match loads response with
      | some v => Except.ok v
      | none => Except.error PyExc.jsonDecodeError
    else
      let start_idx := pyFind response.data '\x7b'
      let end_idx := pyRfind response.data '\x7d' + 1
      if start_idx ≠ -1 ∧ end_idx ≠ -1 then
        match loads (String.mk (pySliceL response.data start_idx end_idx)) with
        | some v => Except.ok v
        | none => Except.error PyExc.jsonDecodeError
      else
        Except.ok (parseFallback response "Could not parse detailed plan")
  match body with
  | Except.ok v => Except.ok v
  | Except.error PyExc.jsonDecodeError =>
    Except.ok (parseFallback response "Could not parse LLM response")
  | Except.error e => Except.error e

/-- The four required step fields checked at line 223. -/
def requiredKeys : List String := ["step", "description", "task", "category"]

/-- Python type name, for `TypeError` messages. -/
def pyTypeName : JValue → String
  | JValue.null => "NoneType"
  | JValue.bool _ => "bool"
  | JValue.num _ e => if e = 0 then "int" else "float"
  | JValue.str _ => "str"
  | JValue.arr _ => "list"
  | JValue.obj _ => "dict"

/-- Python `k == elem` for a string `k`: true only for an equal string. -/
def jlContainsStr : JList → String → Bool
  | JList.nil, _ => false
  | JList.cons (JValue.str t) tl, k => k = t || jlContainsStr tl k
  | JList.cons _ tl, k => jlContainsStr tl k

/-- Python `key in step` for an arbitrary `step` value: key membership for a
dict, substring containment for a str, element equality for a list, and a
`TypeError` for non-container values. -/
def pyInStep (k : String) (step : JValue) : Except PyExc Bool :=
  match step with
  | JValue.obj ms => Except.ok (mHasKey ms k)
  | JValue.str t => Except.ok (pySubstr k.data t.data)
  | JValue.arr xs => Except.ok (jlContainsStr xs k)
  | v => Except.error (PyExc.typeError
      ("argument of type '" ++ pyTypeName v ++ "' is not iterable"))

/-- Python `all(key in step for key in [...])`: lazy conjunction, left to
right, propagating a raised `TypeError`. -/
def pyAllKeys : List String → JValue → Except PyExc Bool
  | [], _ => Except.ok true
  | k :: ks, step =>
    match pyInStep k step with
    | Except.error e => Except.error e
    | Except.ok true => pyAllKeys ks step
    | Except.ok false => Except.ok false

/-- Lines 222-224: the per-step validation loop of `PlannerNode.plan`. -/
def checkSteps : JList → Except PyExc Unit
  | JList.nil => Except.ok ()
  | JList.cons step tl =>
    match pyAllKeys requiredKeys step with
    | Except.error e => Except.error e
    | Except.ok true => checkSteps tl
    | Except.ok false => Except.error (PyExc.valueError
        "Each step must have step, description, task, and category fields")

/-- Python dict `.get` on a JSON value (the receiver is always a dict here,
see `parse_response_returns_dict`). -/
def pyDictGet (v : JValue) (k : String) : Option JValue :=
  match v with
  | JValue.obj ms => mFind ms k
  | _ => none

/-- The `try` body of `PlannerNode.plan`, lines 192-226: build the messages
(the `HumanMessage` constructor validates that the content is a string -
modelled from the spec: the client libraries are external, and the spec's
planner contract "accepts free-text instruction"), invoke the LLM, extract
the content, parse it, and validate the plan structure. -/
def planBody (user_input : JValue) (llm : Except PyExc LLMResp) :
    Except PyExc JValue :=
  match user_input with
  | JValue.str _ =>
    (match llm with
    | Except.error e => Except.error e
    | Except.ok resp =>
      match parse_response (getContent resp) with
      | Except.error e => Except.error e
      | Except.ok p =>
        match pyDictGet p "plan" with
        | some (JValue.arr steps) =>
          (match checkSteps steps with
          | Except.ok _ => Except.ok p
          | Except.error e => Except.error e)
        | _ => Except.error (PyExc.valueError "Plan must contain a list of steps"))
  | v => Except.error (PyExc.typeError
      ("message content must be a string, got '" ++ pyTypeName v ++ "'"))

/-- The fallback plan of `PlannerNode.plan`, lines 233-246. -/
def fallbackPlan (user_input : JValue) (msg : String) : JValue :=
  mkObj [("plan", mkArr [mkObj [
      ("step", JValue.num 1 0),
      ("description", JValue.str "Execute user request"),
      ("task", user_input),
      ("category", JValue.str "other")]]),
    ("summary", JValue.str "Execute user request (fallback plan)"),
    ("estimated_time", JValue.str "Unknown"),
    ("requires_sudo", JValue.bool false),
    ("warnings", mkArr [JValue.str msg])]

/-- `PlannerNode.plan`, lines 182-246: the `try` body with the
`except Exception` handler that returns the fallback plan with the warning
`"Planning failed: " ++ str(e)`. -/
def plan (user_input : JValue) (llm : Except PyExc LLMResp) : JValue :=
  match planBody user_input llm with
  | Except.ok p => p
  | Except.error e => fallbackPlan user_input ("Planning failed: " ++ excStr e)

/-! ### The LangGraph state and `PlannerNode.__call__`. -/

/-- Python dict lookup on the graph state. -/
def stGet : List (String × JValue) → String → Option JValue
  | [], _ => none
  | (k1, v1) :: tl, k => if k1 = k then some v1 else stGet tl k

/-- Python dict update `{**state, k: v}` for one key: replace in place if the
key exists, else append. -/
def stSet : List (String × JValue) → String → JValue → List (String × JValue)
  | [], k, v => [(k, v)]
  | (k1, v1) :: tl, k, v =>
    if k1 = k then (k1, v) :: tl else (k1, v1) :: stSet tl k v

/-- Python truthiness of a value (`if not user_input`). -/
def pyTruthy : JValue → Bool
  | JValue.null => false
  | JValue.bool b => b
  | JValue.num m _ => m != 0
  | JValue.str s => s != ""
  | JValue.arr JList.nil => false
  | JValue.arr _ => true
  | JValue.obj JMembers.nil => false
  | JValue.obj _ => true

/-- The empty plan returned for missing input, lines 263-269. -/
def emptyPlan : JValue :=
  mkObj [("plan", mkArr []),
    ("summary", JValue.str "No input provided"),
    ("estimated_time", JValue.str "0 minutes"),
    ("requires_sudo", JValue.bool false),
    ("warnings", mkArr [JValue.str "No user input provided"])]

/-- `PlannerNode.__call__`, lines 248-281.  The LLM client's behaviour is the
explicit `llm` argument; the empty-input branch never touches it. -/
def callNode (state : List (String × JValue)) (llm : Except PyExc LLMResp) :
    List (String × JValue) :=
  let user_input := (stGet state "user_input").getD (JValue.str "")
  if pyTruthy user_input then
    stSet (stSet (stSet (stSet state "plan" (plan user_input llm))
        "current_step" (JValue.num 0 0))
      "completed_steps" (mkArr []))
      "failed_steps" (mkArr [])
  else
    stSet state "plan" emptyPlan

/-! ### Support lemmas: whitespace, find, rfind. -/

theorem skipWs_cons_not {c : Char} (l : List Char) (h : jsonWs c = false) :
    skipWs (c :: l) = c :: l := by
  simp [skipWs, List.dropWhile, h]

theorem skipWs_cons_ws {c : Char} (l : List Char) (h : jsonWs c = true) :
    skipWs (c :: l) = skipWs l := by
  simp [skipWs, List.dropWhile, h]

theorem pyRfind_ge (l : List Char) (c : Char) : -1 ≤ pyRfind l c := by
  induction l with
  | nil => simp [pyRfind]
  | cons a tl ih =>
    simp only [pyRfind]
    split_ifs <;> omega

theorem pyFind_drop (l : List Char) (c : Char) (h : pyFind l c ≠ -1) :
    ∃ (n : Nat) (rest : List Char), pyFind l c = (n : Int) ∧ l.drop n = c :: rest := by
  induction l with
  | nil => simp [pyFind] at h
  | cons a tl ih =>
    by_cases hac : a = c
    · exact ⟨0, tl, by simp [pyFind, hac], by simp [hac]⟩
    · have hne : pyFind tl c ≠ -1 := by
        intro h0
        apply h
        simp [pyFind, hac, h0]
      obtain ⟨n, rest, hn, hdrop⟩ := ih hne
      refine ⟨n + 1, rest, ?_, ?_⟩
      · simp [pyFind, hac, hn]
      · simpa using hdrop

/-- Flattened control flow of `_parse_response`: helper equation shared by
several claims. -/
theorem parse_response_cases (s : String) :
    parse_response s = Except.ok (
      if pyStartsWith (pyStrip s) '\x7b' then
        match loads s with
        | some v => v
        | none => parseFallback s "Could not parse LLM response"
      else if pyFind s.data '\x7b' ≠ -1 ∧ pyRfind s.data '\x7d' + 1 ≠ -1 then
        match loads (String.mk (pySliceL s.data (pyFind s.data '\x7b')
            (pyRfind s.data '\x7d' + 1))) with
        | some v => v
        | none => parseFallback s "Could not parse LLM response"
      else
        parseFallback s "Could not parse detailed plan") := by
  unfold parse_response
  by_cases h1 : pyStartsWith (pyStrip s) '\x7b'
  · simp only [if_pos h1]
    cases hl : loads s <;> simp [hl]
  · simp only [if_neg h1]
    by_cases h2 : pyFind s.data '\x7b' ≠ -1 ∧ pyRfind s.data '\x7d' + 1 ≠ -1
    · simp only [if_pos h2]
      cases hl : loads (String.mk (pySliceL s.data (pyFind s.data '\x7b')
          (pyRfind s.data '\x7d' + 1))) <;> simp [hl]
    · simp only [if_neg h2]

/-! ### Heads of successful parses: every branch of `_parse_response`
produces a dict. -/

theorem dropWhile_head_false {p : Char → Bool} :
    ∀ {l : List Char} {c : Char} {cs : List Char},
      l.dropWhile p = c :: cs → p c = false := by
  intro l
  induction l with
  | nil => intro c cs h; simp at h
  | cons a tl ih =>
    intro c cs h
    rw [List.dropWhile_cons] at h
    by_cases hpa : p a = true
    · rw [if_pos hpa] at h
      exact ih h
    · rw [if_neg hpa] at h
      injection h with h1 h2
      subst h1
      simpa using hpa

theorem dropWhile_subset_eq {p q : Char → Bool}
    (hsub : ∀ x, q x = true → p x = true) :
    ∀ l : List Char, l.dropWhile p = (l.dropWhile q).dropWhile p := by
  intro l
  induction l with
  | nil => rfl
  | cons a tl ih =>
    rw [List.dropWhile_cons]
    by_cases hqa : q a = true
    · rw [if_pos (hsub a hqa), List.dropWhile_cons, if_pos hqa]
      exact ih
    · rw [List.dropWhile_cons, if_neg hqa, List.dropWhile_cons]

theorem dropWhile_append_last {p : Char → Bool} {c : Char} (hc : p c = false) :
    ∀ xs : List Char, ∃ t, List.dropWhile p (xs ++ [c]) = t ++ [c] := by
  intro xs
  induction xs with
  | nil => exact ⟨[], by simp [List.dropWhile, hc]⟩
  | cons a tl ih =>
    by_cases hpa : p a = true
    · obtain ⟨t, ht⟩ := ih
      exact ⟨t, by rw [List.cons_append, List.dropWhile_cons, if_pos hpa]; exact ht⟩
    · exact ⟨a :: (tl ++ [c]).dropLast, by
        rw [List.cons_append, List.dropWhile_cons, if_neg hpa]
        simp⟩

theorem pyStripL_head {l : List Char} {c : Char} {cs : List Char}
    (h : l.dropWhile pyWs = c :: cs) : ∃ t, pyStripL l = c :: t := by
  have hc : pyWs c = false := dropWhile_head_false h
  unfold pyStripL
  rw [h, show (c :: cs).reverse = cs.reverse ++ [c] from by simp]
  obtain ⟨t, ht⟩ := dropWhile_append_last hc cs.reverse
  rw [ht]
  exact ⟨t.reverse, by simp⟩

theorem jsonWs_pyWs {c : Char} (h : jsonWs c = true) : pyWs c = true := by
  have hm : c ∈ jsonWsChars := of_decide_eq_true h
  fin_cases hm <;> decide

theorem pVal_some_head {f : Nat} {l : List Char} {v : JValue} {r : List Char}
    (hp : pVal f l = some (v, r)) :
    ∃ c cs, skipWs l = c :: cs ∧ pyWs c = false := by
  cases f with
  | zero => simp [pVal] at hp
  | succ g =>
    cases heq : skipWs l with
    | nil => simp [pVal, heq] at hp
    | cons c cs =>
      refine ⟨c, cs, rfl, ?_⟩
      by_contra hws
      have hws' : pyWs c = true := by simpa using hws
      have hmem : c ∈ pyWsChars := of_decide_eq_true hws'
      simp only [pVal, heq] at hp
      fin_cases hmem <;> simp [pNumber, pNumIp, isDig] at hp

theorem pVal_obj_head {f : Nat} {l : List Char} {v : JValue} {r cs : List Char}
    (hp : pVal f l = some (v, r)) (heq : skipWs l = '\x7b' :: cs) :
    ∃ ms, v = JValue.obj ms := by
  cases f with
  | zero => simp [pVal] at hp
  | succ g =>
    simp only [pVal, heq, if_pos] at hp
    split at hp
    · simp only [Option.some.injEq, Prod.mk.injEq] at hp
      exact ⟨JMembers.nil, hp.1.symm⟩
    · rw [Option.map_eq_some'] at hp
      obtain ⟨p, hp1, hp2⟩ := hp
      simp only [Prod.mk.injEq] at hp2
      exact ⟨mCollapse p.1, hp2.1.symm⟩

theorem loads_some_pVal {s : String} {v : JValue} (h : loads s = some v) :
    ∃ rest, pVal (s.data.length + 1) s.data = some (v, rest) := by
  unfold loads at h
  cases hp : pVal (s.data.length + 1) s.data with
  | none => rw [hp] at h; simp at h
  | some p =>
    obtain ⟨v0, rest⟩ := p
    rw [hp] at h
    simp only at h
    by_cases hr : skipWs rest = []
    · simp only [hr, if_true] at h
      injection h with h1
      exact ⟨rest, by rw [h1]⟩
    · simp [hr] at h

theorem loads_obj_of_strip {s : String} {v : JValue} (h : loads s = some v)
    (hs : pyStartsWith (pyStrip s) '\x7b' = true) : ∃ ms, v = JValue.obj ms := by
  obtain ⟨rest, hp⟩ := loads_some_pVal h
  obtain ⟨c, cs, hskip, hcws⟩ := pVal_some_head hp
  have hdw : s.data.dropWhile pyWs = c :: cs := by
    rw [dropWhile_subset_eq (fun x hx => jsonWs_pyWs hx) s.data]
    rw [show s.data.dropWhile jsonWs = c :: cs from hskip]
    rw [List.dropWhile_cons, if_neg (by simp [hcws])]
  obtain ⟨t, hstrip⟩ := pyStripL_head hdw
  have hc : c = '\x7b' := by
    unfold pyStartsWith pyStrip at hs
    rw [show (String.mk (pyStripL s.data)).data = pyStripL s.data from rfl,
      hstrip] at hs
    exact of_decide_eq_true hs
  subst hc
  exact pVal_obj_head hp hskip

theorem loads_empty_none : loads "" = none := rfl

theorem loads_slice_obj {s : String} {v : JValue}
    (hfind : pyFind s.data '\x7b' ≠ -1)
    (h : loads (String.mk (pySliceL s.data (pyFind s.data '\x7b')
      (pyRfind s.data '\x7d' + 1))) = some v) :
    ∃ ms, v = JValue.obj ms := by
  obtain ⟨n, rest0, hn, hdrop⟩ := pyFind_drop _ _ hfind
  have hslice : pySliceL s.data (pyFind s.data '\x7b') (pyRfind s.data '\x7d' + 1)
      = ('\x7b' :: rest0).take ((pyRfind s.data '\x7d' + 1).toNat - n) := by
    unfold pySliceL
    rw [hn]
    simp only [Int.toNat_natCast]
    rw [hdrop]
  cases hk : (pyRfind s.data '\x7d' + 1).toNat - n with
  | zero =>
    rw [hslice, hk] at h
    simp only [List.take_zero] at h
    exact absurd h (by rw [show String.mk ([] : List Char) = "" from rfl,
      loads_empty_none]; simp)
  | succ k =>
    rw [hslice, hk] at h
    obtain ⟨rest, hp⟩ := loads_some_pVal h
    have hskip : skipWs (String.mk ('\x7b' :: List.take k rest0)).data
        = '\x7b' :: List.take k rest0 := skipWs_cons_not _ (by decide)
    exact pVal_obj_head hp hskip

theorem parseFallback_obj (s w : String) :
    ∃ ms, parseFallback s w = JValue.obj ms := ⟨_, rfl⟩

/-- `_parse_response` never raises and always returns a Python dict. -/
theorem parse_response_never_raises (s : String) :
    ∃ ms, parse_response s = Except.ok (JValue.obj ms) := by
  rw [parse_response_cases s]
  by_cases h1 : pyStartsWith (pyStrip s) '\x7b'
  · rw [if_pos h1]
    cases hl : loads s with
    | none =>
      obtain ⟨ms, hms⟩ := parseFallback_obj s "Could not parse LLM response"
      exact ⟨ms, by rw [hms]⟩
    | some v =>
      obtain ⟨ms, hms⟩ := loads_obj_of_strip hl h1
      exact ⟨ms, by rw [hms]⟩
  · rw [if_neg h1]
    by_cases h2 : pyFind s.data '\x7b' ≠ -1 ∧ pyRfind s.data '\x7d' + 1 ≠ -1
    · rw [if_pos h2]
      cases hl : loads (String.mk (pySliceL s.data (pyFind s.data '\x7b')
          (pyRfind s.data '\x7d' + 1))) with
      | none =>
        obtain ⟨ms, hms⟩ := parseFallback_obj s "Could not parse LLM response"
        exact ⟨ms, by rw [hms]⟩
      | some v =>
        obtain ⟨ms, hms⟩ := loads_slice_obj h2.1 hl
        exact ⟨ms, by rw [hms]⟩
    · rw [if_neg h2]
      obtain ⟨ms, hms⟩ := parseFallback_obj s "Could not parse detailed plan"
      exact ⟨ms, by rw [hms]⟩

/-! ### Plan-level lemmas. -/

theorem planBody_ok_obj {ui : JValue} {llm : Except PyExc LLMResp} {p : JValue}
    (h : planBody ui llm = Except.ok p) : ∃ ms, p = JValue.obj ms := by
  cases ui with
  | str s =>
    cases llm with
    | error e => simp [planBody] at h
    | ok resp =>
      obtain ⟨ms, hpr⟩ := parse_response_never_raises (getContent resp)
      simp only [planBody, hpr] at h
      split at h
      · split at h
        · injection h with h1
          exact ⟨ms, h1.symm⟩
        · simp at h
      · simp at h
  | null => simp [planBody] at h
  | bool b => simp [planBody] at h
  | num m e => simp [planBody] at h
  | arr xs => simp [planBody] at h
  | obj ms => simp [planBody] at h

theorem stGet_stSet (st : List (String × JValue)) (k k' : String) (v : JValue) :
    stGet (stSet st k v) k' = if k' = k then some v else stGet st k' := by
  induction st with
  | nil =>
    simp only [stSet, stGet]
    by_cases h : k = k'
    · subst h; simp
    · rw [if_neg h, if_neg (fun hh => h hh.symm)]
  | cons a tl ih =>
    obtain ⟨k1, v1⟩ := a
    simp only [stSet]
    by_cases h1 : k1 = k
    · subst h1
      simp only [if_pos rfl, stGet]
      by_cases h2 : k1 = k'
      · subst h2; simp
      · rw [if_neg h2, if_neg (fun hh => h2 hh.symm), if_neg h2]
    · rw [if_neg h1]
      simp only [stGet]
      by_cases h2 : k1 = k'
      · subst h2
        rw [if_pos rfl, if_neg h1, if_pos rfl]
      · rw [if_neg h2, ih, if_neg h2]

/-! ### The claims. -/

/-- C1: for every input string and every behaviour of the LLM client
(including raised exceptions and malformed or field-missing responses),
`PlannerNode.plan` returns normally with a Plan dict, and whenever the try
body fails it returns the single-step fallback whose warnings list holds
`"Planning failed: " ++ str(e)`. -/
theorem plan_total_with_fallback_warning (s : String) (llm : Except PyExc LLMResp) :
    (∃ ms, plan (JValue.str s) llm = JValue.obj ms) ∧
    (∀ e, planBody (JValue.str s) llm = Except.error e →
      plan (JValue.str s) llm = fallbackPlan (JValue.str s)
        ("Planning failed: " ++ excStr e)) := by
  constructor
  · unfold plan
    cases hb : planBody (JValue.str s) llm with
    | ok p =>
      obtain ⟨ms, hms⟩ := planBody_ok_obj hb
      exact ⟨ms, by rw [hms]⟩
    | error e => exact ⟨_, rfl⟩
  · intro e he
    unfold plan
    rw [he]

/-- Witness for C1: a client that raises yields the fallback plan with the
failure warning. -/
theorem plan_total_with_fallback_warning_witness :
    plan (JValue.str "hi") (Except.error (PyExc.clientError "connection refused"))
      = fallbackPlan (JValue.str "hi") "Planning failed: connection refused" :=
  (plan_total_with_fallback_warning "hi"
    (Except.error (PyExc.clientError "connection refused"))).2 _ rfl

/-- C2 (code bug): the per-step validation accepts a step that is a plain
string, because Python `key in step` is substring containment on strings;
`plan` then returns a Plan whose only step carries none of the four required
fields (it is not even a dict: every key lookup on it is `None`). -/
theorem plan_returns_string_step_without_required_fields :
    plan (JValue.str "x") (Except.ok (LLMResp.withContent
        "\x7b\"plan\": [\"step description task category\"]\x7d"))
      = mkObj [("plan", mkArr [JValue.str "step description task category"])] ∧
    (∀ k, pyDictGet (JValue.str "step description task category") k = none) :=
  ⟨rfl, fun _ => rfl⟩

/-- C3: a state whose `user_input` is absent or the empty string yields the
state extended with the empty Plan; the result does not depend on the LLM
behaviour `llm`, which models that neither `plan` nor the client is invoked
on this path. -/
theorem call_empty_input_empty_plan_no_llm
    (state : List (String × JValue)) (llm : Except PyExc LLMResp)
    (h : stGet state "user_input" = none ∨
      stGet state "user_input" = some (JValue.str "")) :
    callNode state llm = stSet state "plan" emptyPlan := by
  unfold callNode
  rcases h with h | h <;> rw [h] <;> rfl

/-- Witness for C3 at a concrete state with no `user_input` key. -/
theorem call_empty_input_empty_plan_no_llm_witness :
    callNode [("x", JValue.num 7 0)] (Except.error (PyExc.clientError "down"))
      = stSet [("x", JValue.num 7 0)] "plan" emptyPlan :=
  call_empty_input_empty_plan_no_llm _ _ (Or.inl rfl)

/-- C4: a response on which every parse attempt of `_parse_response` fails
yields a single-step fallback Plan: one step with the four required fields,
category `"other"`, task the stripped response text. -/
theorem parse_response_malformed_single_step_fallback (s : String)
    (h1 : pyStartsWith (pyStrip s) '\x7b' = true → loads s = none)
    (h2 : pyStartsWith (pyStrip s) '\x7b' = false →
      pyFind s.data '\x7b' ≠ -1 →
      loads (String.mk (pySliceL s.data (pyFind s.data '\x7b')
        (pyRfind s.data '\x7d' + 1))) = none) :
    ∃ w, (w = "Could not parse detailed plan" ∨
        w = "Could not parse LLM response") ∧
      parse_response s = Except.ok (parseFallback s w) ∧
      pyDictGet (parseFallback s w) "plan" = some (mkArr [mkObj
        [("step", JValue.num 1 0),
         ("description", JValue.str "Execute user request"),
         ("task", JValue.str (pyStrip s)),
         ("category", JValue.str "other")]]) := by
  have hget : ∀ w, pyDictGet (parseFallback s w) "plan" = some (mkArr [mkObj
      [("step", JValue.num 1 0),
       ("description", JValue.str "Execute user request"),
       ("task", JValue.str (pyStrip s)),
       ("category", JValue.str "other")]]) := fun w => rfl
  by_cases hb1 : pyStartsWith (pyStrip s) '\x7b' = true
  · refine ⟨"Could not parse LLM response", Or.inr rfl, ?_, hget _⟩
    rw [parse_response_cases s, if_pos hb1, h1 hb1]
  · by_cases hb2 : pyFind s.data '\x7b' ≠ -1
    · refine ⟨"Could not parse LLM response", Or.inr rfl, ?_, hget _⟩
      have hend : pyRfind s.data '\x7d' + 1 ≠ -1 := by
        have := pyRfind_ge s.data '\x7d'
        omega
      rw [parse_response_cases s, if_neg hb1, if_pos ⟨hb2, hend⟩,
        h2 (Bool.eq_false_iff.mpr hb1) hb2]
    · refine ⟨"Could not parse detailed plan", Or.inl rfl, ?_, hget _⟩
      rw [parse_response_cases s, if_neg hb1,
        if_neg (fun hand => hb2 hand.1)]

/-- Witness for C4 at a malformed response that starts with a brace: a JSON
object followed by trailing text, on which only the direct parse applies and
fails. -/
theorem parse_response_malformed_single_step_fallback_witness :
    ∃ w, (w = "Could not parse detailed plan" ∨
        w = "Could not parse LLM response") ∧
      parse_response "\x7b\"a\": 1\x7dx"
        = Except.ok (parseFallback "\x7b\"a\": 1\x7dx" w) ∧
      pyDictGet (parseFallback "\x7b\"a\": 1\x7dx" w) "plan"
        = some (mkArr [mkObj
        [("step", JValue.num 1 0),
         ("description", JValue.str "Execute user request"),
         ("task", JValue.str (pyStrip "\x7b\"a\": 1\x7dx")),
         ("category", JValue.str "other")]]) :=
  parse_response_malformed_single_step_fallback "\x7b\"a\": 1\x7dx"
    (fun _ => rfl) (fun h _ => absurd h (by decide))

/-- C5: `_parse_response` proceeds in order: direct JSON parse when the
stripped response starts with a brace; otherwise extraction of the substring
between the first `\x7b` and the last `\x7d` when applicable; the
single-step fallback wrapping the response text only when the applicable
attempts fail. -/
theorem parse_response_attempt_order (s : String) :
    parse_response s = Except.ok (
      if pyStartsWith (pyStrip s) '\x7b' then
        match loads s with
        | some v => v
        | none => parseFallback s "Could not parse LLM response"
      else if pyFind s.data '\x7b' ≠ -1 ∧ pyRfind s.data '\x7d' + 1 ≠ -1 then
        match loads (String.mk (pySliceL s.data (pyFind s.data '\x7b')
            (pyRfind s.data '\x7d' + 1))) with
        | some v => v
        | none => parseFallback s "Could not parse LLM response"
      else
        parseFallback s "Could not parse detailed plan") :=
  parse_response_cases s

/-- C7: with a nonempty string `user_input`, `__call__` returns the state
with the Plan under `plan` and the tracking fields `current_step = 0`,
`completed_steps = []`, `failed_steps = []`; every other key keeps its
value. -/
theorem call_merges_plan_and_tracking_fields
    (state : List (String × JValue)) (llm : Except PyExc LLMResp) (s : String)
    (h1 : stGet state "user_input" = some (JValue.str s)) (h2 : s ≠ "") :
    callNode state llm =
      stSet (stSet (stSet (stSet state "plan" (plan (JValue.str s) llm))
          "current_step" (JValue.num 0 0))
        "completed_steps" (mkArr []))
        "failed_steps" (mkArr []) ∧
    (∀ k, k ≠ "plan" → k ≠ "current_step" → k ≠ "completed_steps" →
      k ≠ "failed_steps" → stGet (callNode state llm) k = stGet state k) := by
  have htr : pyTruthy (JValue.str s) = true := by
    simp only [pyTruthy, bne_iff_ne, ne_eq]
    exact h2
  have hcall : callNode state llm =
      stSet (stSet (stSet (stSet state "plan" (plan (JValue.str s) llm))
          "current_step" (JValue.num 0 0))
        "completed_steps" (mkArr []))
        "failed_steps" (mkArr []) := by
    unfold callNode
    rw [h1]
    simp only [Option.getD_some]
    rw [if_pos htr]
  refine ⟨hcall, ?_⟩
  intro k hk1 hk2 hk3 hk4
  rw [hcall, stGet_stSet, stGet_stSet, stGet_stSet, stGet_stSet,
    if_neg hk4, if_neg hk3, if_neg hk2, if_neg hk1]

/-- Witness for C7 at a concrete state and a failing client. -/
theorem call_merges_plan_and_tracking_fields_witness :
    callNode [("user_input", JValue.str "deploy"), ("z", JValue.null)]
        (Except.error (PyExc.clientError "down")) =
      stSet (stSet (stSet (stSet
          [("user_input", JValue.str "deploy"), ("z", JValue.null)]
          "plan" (plan (JValue.str "deploy")
            (Except.error (PyExc.clientError "down"))))
          "current_step" (JValue.num 0 0))
        "completed_steps" (mkArr []))
        "failed_steps" (mkArr []) ∧
    (∀ k, k ≠ "plan" → k ≠ "current_step" → k ≠ "completed_steps" →
      k ≠ "failed_steps" →
      stGet (callNode [("user_input", JValue.str "deploy"), ("z", JValue.null)]
          (Except.error (PyExc.clientError "down"))) k
        = stGet [("user_input", JValue.str "deploy"), ("z", JValue.null)] k) :=
  call_merges_plan_and_tracking_fields
    [("user_input", JValue.str "deploy"), ("z", JValue.null)]
    (Except.error (PyExc.clientError "down")) "deploy" rfl (by decide)

/-- The category enumeration offered to the LLM in the system prompt
(line 39 of the source). -/
def categoryEnum : List String :=
  ["install", "configure", "start", "stop", "check", "create", "delete",
   "update", "other"]

/-- The `category` entries of the steps of a Plan value. -/
def stepCategories (p : JValue) : List (Option JValue) :=
  match pyDictGet p "plan" with
  | some (JValue.arr xs) => go xs
  | _ => []
where
  /-- Collect `category` lookups over the step list. -/
  go : JList → List (Option JValue)
    | JList.nil => []
    | JList.cons v tl => pyDictGet v "category" :: go tl

/-- C8 counterexample: a parsed LLM response may carry a category outside
the enumeration; `plan` returns it unchanged, so the claim fails as
stated. -/
theorem plan_keeps_unenumerated_category :
    plan (JValue.str "x") (Except.ok (LLMResp.withContent
        "\x7b\"plan\": [\x7b\"step\": 1, \"description\": \"d\", \"task\": \"t\", \"category\": \"banana\"\x7d]\x7d"))
      = mkObj [("plan", mkArr [mkObj [("step", JValue.num 1 0),
          ("description", JValue.str "d"), ("task", JValue.str "t"),
          ("category", JValue.str "banana")]])] ∧
    "banana" ∉ categoryEnum :=
  ⟨rfl, by decide⟩

/-- C8 amended: the fallback Plans built by `plan` and `_parse_response`
give every step the category `"other"`, which is in the enumeration, and the
empty Plan has no steps; the categories of steps parsed from an LLM response
are not validated against the enumeration. -/
theorem fallback_categories_enumerated (ui : JValue) (msg s w : String) :
    stepCategories (fallbackPlan ui msg) = [some (JValue.str "other")] ∧
    stepCategories (parseFallback s w) = [some (JValue.str "other")] ∧
    stepCategories emptyPlan = [] ∧
    "other" ∈ categoryEnum :=
  ⟨rfl, rfl, rfl, by decide⟩

/-- C9: `_parse_response` is total: for every input string it returns a
dict and never raises (the only raising operation, `json.loads`, is guarded
by the `JSONDecodeError` handler). -/
theorem parse_response_total_returns_dict (s : String) :
    ∃ ms, parse_response s = Except.ok (JValue.obj ms) :=
  parse_response_never_raises s

/-- C10: the guard `end_idx != -1` is vacuous (`rfind` is at least `-1`, so
`end_idx` is at least `0`); a response containing `\x7b` but no `\x7d`
whose stripped form does not start with `\x7b` yields the empty extracted
slice, `json.loads` fails on it, and the fallback with warning
`"Could not parse LLM response"` is returned, not the no-JSON-found one. -/
theorem rfind_guard_vacuous_empty_slice_fallback (s : String)
    (h1 : pyFind s.data '\x7b' ≠ -1)
    (h2 : pyRfind s.data '\x7d' = -1)
    (h3 : pyStartsWith (pyStrip s) '\x7b' = false) :
    (∀ t : List Char, pyRfind t '\x7d' + 1 ≠ -1) ∧
    pySliceL s.data (pyFind s.data '\x7b') (pyRfind s.data '\x7d' + 1) = [] ∧
    loads "" = none ∧
    parse_response s = Except.ok (parseFallback s "Could not parse LLM response") := by
  have hslice : pySliceL s.data (pyFind s.data '\x7b')
      (pyRfind s.data '\x7d' + 1) = [] := by
    unfold pySliceL
    rw [h2]
    simp
  refine ⟨fun t => by have := pyRfind_ge t '\x7d'; omega, hslice, rfl, ?_⟩
  have hend : pyRfind s.data '\x7d' + 1 ≠ -1 := by
    have := pyRfind_ge s.data '\x7d'
    omega
  rw [parse_response_cases s, if_neg (by simp [h3]), if_pos ⟨h1, hend⟩, hslice]
  rfl

/-! ### Round trip of `loads` after `dumps`: number support. -/

/-- The first character after a serialized number must not extend it. -/
def numSafe : List Char → Prop
  | [] => True
  | c :: _ => isDig c = false ∧ c ≠ '.' ∧ c ≠ 'e' ∧ c ≠ 'E'

theorem numSafe_nodig {rest : List Char} (h : numSafe rest) :
    ∀ c cs, rest = c :: cs → isDig c = false := by
  intro c cs hr
  subst hr
  exact h.1

theorem numSafe_nodot {rest : List Char} (h : numSafe rest) :
    ∀ c cs, rest = c :: cs → c ≠ '.' := by
  intro c cs hr
  subst hr
  exact h.2.1

theorem numSafe_noe {rest : List Char} (h : numSafe rest) :
    ∀ c cs, rest = c :: cs → ¬(c = 'e' ∨ c = 'E') := by
  intro c cs hr
  subst hr
  rintro (he | he) <;> [exact h.2.2.1 he; exact h.2.2.2 he]

theorem ne_of_isDig {c d : Char} (h : isDig c = true) (hd : isDig d = false) :
    c ≠ d := by
  intro he
  rw [he, hd] at h
  cases h

theorem isDig_ofNat_digit {r : Nat} (h : r < 10) :
    isDig (Char.ofNat (48 + r)) = true := by
  interval_cases r <;> decide

theorem toNat_ofNat_digit {r : Nat} (h : r < 10) :
    (Char.ofNat (48 + r)).toNat = 48 + r := by
  interval_cases r <;> decide

theorem ofNat_digit_ne_zero {r : Nat} (h : r < 10) (h0 : 0 < r) :
    Char.ofNat (48 + r) ≠ '0' := by
  interval_cases r <;> first | omega | decide

theorem digitsVal_append_one (xs : List Char) (c : Char) :
    digitsVal (xs ++ [c]) = 10 * digitsVal xs + (c.toNat - 48) := by
  unfold digitsVal
  rw [List.foldl_append]
  simp [List.foldl]
  omega

theorem natCharsGo_spec : ∀ f n, n < f →
    (∀ c ∈ natCharsGo f n, isDig c = true) ∧
    digitsVal (natCharsGo f n) = n ∧
    ∃ c cs, natCharsGo f n = c :: cs ∧ (n = 0 → c = '0') ∧ (0 < n → c ≠ '0') := by
  intro f
  induction f with
  | zero => intro n h; omega
  | succ f ih =>
    intro n hn
    by_cases h10 : n < 10
    · have heq : natCharsGo (f + 1) n = [Char.ofNat (48 + n)] := by
        simp only [natCharsGo, if_pos h10]
      refine ⟨?_, ?_, Char.ofNat (48 + n), [], heq, ?_, ?_⟩
      · intro c hc
        rw [heq] at hc
        simp at hc
        subst hc
        exact isDig_ofNat_digit h10
      · rw [heq]
        show digitsVal ([] ++ [Char.ofNat (48 + n)]) = n
        rw [digitsVal_append_one, toNat_ofNat_digit h10]
        simp [digitsVal]
      · intro h0
        subst h0
        decide
      · intro hpos
        exact ofNat_digit_ne_zero h10 hpos
    · have heq : natCharsGo (f + 1) n
          = natCharsGo f (n / 10) ++ [Char.ofNat (48 + n % 10)] := by
        simp only [natCharsGo, if_neg h10]
      have hdiv : n / 10 < f := by
        have h1 : n / 10 < n := Nat.div_lt_self (by omega) (by omega)
        omega
      obtain ⟨ihd, ihv, c, cs, ihc, ihz, ihnz⟩ := ih (n / 10) hdiv
      have hmod : n % 10 < 10 := Nat.mod_lt _ (by omega)
      refine ⟨?_, ?_, c, cs ++ [Char.ofNat (48 + n % 10)], ?_, ?_, ?_⟩
      · intro d hd
        rw [heq] at hd
        rcases List.mem_append.mp hd with hd | hd
        · exact ihd d hd
        · simp at hd
          subst hd
          exact isDig_ofNat_digit hmod
      · rw [heq, digitsVal_append_one, ihv, toNat_ofNat_digit hmod]
        omega
      · rw [heq, ihc]
        rfl
      · intro h0; omega
      · intro _
        exact ihnz (by omega)

theorem natChars_spec (n : Nat) :
    (∀ c ∈ natChars n, isDig c = true) ∧ digitsVal (natChars n) = n ∧
    ∃ c cs, natChars n = c :: cs ∧ (n = 0 → c = '0') ∧ (0 < n → c ≠ '0') :=
  natCharsGo_spec (n + 1) n (by omega)

theorem takeWhile_append_all {p : Char → Bool} :
    ∀ {xs ys : List Char}, (∀ c ∈ xs, p c = true) →
      (∀ c cs, ys = c :: cs → p c = false) →
      (xs ++ ys).takeWhile p = xs ∧ (xs ++ ys).dropWhile p = ys := by
  intro xs
  induction xs with
  | nil =>
    intro ys h hy
    cases ys with
    | nil => simp
    | cons c cs =>
      simp only [List.nil_append, List.takeWhile_cons, List.dropWhile_cons,
        hy c cs rfl]
      simp
  | cons a tl ih =>
    intro ys h hy
    have hpa : p a = true := h a (List.mem_cons_self a tl)
    have htl := ih (fun c hc => h c (List.mem_cons_of_mem a hc)) hy
    simp only [List.cons_append, List.takeWhile_cons, List.dropWhile_cons, hpa,
      if_true]
    exact ⟨by rw [htl.1], htl.2⟩

theorem pNumber_cons (c : Char) (r : List Char) :
    pNumber (c :: r) = if c = '-' then pNumIp r true else pNumIp (c :: r) false :=
  rfl

theorem pNumIp_cons (c : Char) (r : List Char) (neg : Bool) :
    pNumIp (c :: r) neg =
      (if c = '0' then pNumFrac neg ['0'] r
       else if isDig c then
         pNumFrac neg (c :: r.takeWhile isDig) (r.dropWhile isDig)
       else none) :=
  rfl

theorem pNumFrac_cons (neg : Bool) (ids : List Char) (c : Char) (rf : List Char) :
    pNumFrac neg ids (c :: rf) =
      (if c = '.' then
        (if (rf.takeWhile isDig).isEmpty then none
         else pNumExpPart neg ids (rf.takeWhile isDig) (rf.dropWhile isDig))
      else pNumExpPart neg ids [] (c :: rf)) :=
  rfl

theorem pNumExpPart_cons (neg : Bool) (ids fds : List Char) (c : Char)
    (re : List Char) :
    pNumExpPart neg ids fds (c :: re) =
      (if c = 'e' ∨ c = 'E' then
        pNumExpDigits (if neg then -(Int.ofNat (digitsVal (ids ++ fds)))
          else Int.ofNat (digitsVal (ids ++ fds))) (-(Int.ofNat fds.length)) re
      else some (((if neg then -(Int.ofNat (digitsVal (ids ++ fds)))
          else Int.ofNat (digitsVal (ids ++ fds))), -(Int.ofNat fds.length)),
        c :: re)) :=
  rfl

theorem pNumExpDigits_entry_neg (m fe : Int) (rr : List Char) :
    pNumExpDigits m fe ('-' :: rr) =
      (if (rr.takeWhile isDig).isEmpty then none
       else some ((m, fe + -(Int.ofNat (digitsVal (rr.takeWhile isDig)))),
         rr.dropWhile isDig)) :=
  rfl

theorem pNumExpDigits_entry_dig {c : Char} (m fe : Int) (rr : List Char)
    (h1 : c ≠ '-') (h2 : c ≠ '+') :
    pNumExpDigits m fe (c :: rr) =
      (if ((c :: rr).takeWhile isDig).isEmpty then none
       else some ((m, fe + Int.ofNat (digitsVal ((c :: rr).takeWhile isDig))),
         (c :: rr).dropWhile isDig)) := by
  simp [pNumExpDigits, h1, h2]

theorem pNumFrac_skip {neg : Bool} {ids : List Char} {r : List Char}
    (h : ∀ c cs, r = c :: cs → c ≠ '.') :
    pNumFrac neg ids r = pNumExpPart neg ids [] r := by
  cases r with
  | nil => rfl
  | cons c rf => rw [pNumFrac_cons, if_neg (h c rf rfl)]

theorem pNumExpPart_noexp {neg : Bool} {ids : List Char} {r : List Char}
    (h : ∀ c cs, r = c :: cs → ¬(c = 'e' ∨ c = 'E')) :
    pNumExpPart neg ids [] r = some
      ((if neg then -(Int.ofNat (digitsVal ids)) else Int.ofNat (digitsVal ids),
        0), r) := by
  cases r with
  | nil => simp [pNumExpPart]
  | cons c re =>
    rw [pNumExpPart_cons, if_neg (h c re rfl)]
    simp

theorem pNumExpDigits_intChars (m fe ev : Int) (rest : List Char)
    (hsafe : ∀ c cs, rest = c :: cs → isDig c = false) :
    pNumExpDigits m fe (intChars ev ++ rest) = some ((m, fe + ev), rest) := by
  by_cases hev : ev < 0
  · obtain ⟨hd, hv, c, cs, hc, hz, hnz⟩ := natChars_spec ev.natAbs
    obtain ⟨htw, hdw⟩ := takeWhile_append_all hd hsafe
    have hempty : (natChars ev.natAbs).isEmpty = false := by rw [hc]; rfl
    simp only [intChars, if_pos hev, List.cons_append]
    rw [pNumExpDigits_entry_neg, htw, hdw, if_neg (by simp [hempty]), hv]
    have hval : fe + -(Int.ofNat ev.natAbs) = fe + ev := by
      simp only [Int.ofNat_eq_natCast]
      omega
    rw [hval]
  · obtain ⟨hd, hv, c, cs, hc, hz, hnz⟩ := natChars_spec ev.toNat
    obtain ⟨htw, hdw⟩ := takeWhile_append_all hd hsafe
    have hempty : (natChars ev.toNat).isEmpty = false := by rw [hc]; rfl
    have hcd : isDig c = true := hd c (by rw [hc]; exact List.mem_cons_self c cs)
    have hne1 : c ≠ '-' := ne_of_isDig hcd (by decide)
    have hne2 : c ≠ '+' := ne_of_isDig hcd (by decide)
    simp only [intChars, if_neg hev]
    rw [hc, List.cons_append, pNumExpDigits_entry_dig m fe _ hne1 hne2,
      ← List.cons_append, ← hc, htw, hdw, if_neg (by simp [hempty]), hv]
    have hval : fe + Int.ofNat ev.toNat = fe + ev := by
      simp only [Int.ofNat_eq_natCast]
      omega
    rw [hval]

theorem pNumIp_natChars (n : Nat) (neg : Bool) (tail : List Char)
    (htail : ∀ c cs, tail = c :: cs → isDig c = false) :
    pNumIp (natChars n ++ tail) neg = pNumFrac neg (natChars n) tail := by
  obtain ⟨hd, hv, c, cs, hc, hz, hnz⟩ := natChars_spec n
  rw [hc, List.cons_append, pNumIp_cons]
  by_cases h0 : c = '0'
  · rw [if_pos h0]
    have hn0 : n = 0 := by
      by_contra hne
      exact hnz (by omega) h0
    subst hn0
    have hsing : c :: cs = ['0'] := by rw [← hc]; rfl
    injection hsing with h1 h2
    subst h2
    subst h1
    simp
  · have hcd : isDig c = true := hd c (by rw [hc]; exact List.mem_cons_self c cs)
    rw [if_neg h0, if_pos hcd]
    have hdtl : ∀ d ∈ cs, isDig d = true := by
      intro d hdm
      exact hd d (by rw [hc]; exact List.mem_cons_of_mem c hdm)
    obtain ⟨htw, hdw⟩ := takeWhile_append_all hdtl htail
    rw [htw, hdw]

theorem pNumber_natChars (n : Nat) (tail : List Char) :
    pNumber (natChars n ++ tail) = pNumIp (natChars n ++ tail) false := by
  obtain ⟨hd, _, c, cs, hc, _, _⟩ := natChars_spec n
  rw [hc, List.cons_append, pNumber_cons]
  rw [if_neg (ne_of_isDig (hd c (by rw [hc]; exact List.mem_cons_self c cs))
    (by decide))]

theorem dumpNum_rt (m e : Int) (rest : List Char) (hsafe : numSafe rest) :
    pNumber (dumpNum m e ++ rest) = some ((m, e), rest) := by
  have hnodig := numSafe_nodig hsafe
  have hnodot := numSafe_nodot hsafe
  have hnoe := numSafe_noe hsafe
  unfold dumpNum
  by_cases he : e = 0
  · subst he
    rw [if_pos rfl]
    unfold intChars
    by_cases hm : m < 0
    · rw [if_pos hm, List.cons_append, pNumber_cons, if_pos rfl]
      rw [pNumIp_natChars _ _ _ hnodig, pNumFrac_skip hnodot,
        pNumExpPart_noexp hnoe]
      obtain ⟨_, hv, _⟩ := natChars_spec m.natAbs
      rw [if_pos rfl, hv]
      have hval : -(Int.ofNat m.natAbs) = m := by
        simp only [Int.ofNat_eq_natCast]
        omega
      rw [hval]
    · rw [if_neg hm]
      rw [pNumber_natChars, pNumIp_natChars _ _ _ hnodig,
        pNumFrac_skip hnodot, pNumExpPart_noexp hnoe]
      obtain ⟨_, hv, _⟩ := natChars_spec m.toNat
      rw [if_neg Bool.false_ne_true, hv]
      have hval : Int.ofNat m.toNat = m := by
        simp only [Int.ofNat_eq_natCast]
        omega
      rw [hval]
  · rw [if_neg he]
    have hassoc : (intChars m ++ 'e' :: intChars e) ++ rest
        = intChars m ++ ('e' :: (intChars e ++ rest)) := by
      simp
    rw [hassoc]
    have htail : ∀ c cs, 'e' :: (intChars e ++ rest) = c :: cs →
        isDig c = false := by
      intro c cs hh
      injection hh with h1 _
      subst h1
      decide
    have htaildot : ∀ c cs, 'e' :: (intChars e ++ rest) = c :: cs →
        c ≠ '.' := by
      intro c cs hh
      injection hh with h1 _
      subst h1
      decide
    by_cases hm : m < 0
    · rw [show intChars m = '-' :: natChars m.natAbs from by
        rw [intChars, if_pos hm], List.cons_append, pNumber_cons, if_pos rfl]
      rw [pNumIp_natChars _ _ _ htail, pNumFrac_skip htaildot,
        pNumExpPart_cons, if_pos (Or.inl rfl),
        pNumExpDigits_intChars _ _ _ _ hnodig]
      obtain ⟨_, hv, _⟩ := natChars_spec m.natAbs
      simp only [List.append_nil, hv, if_pos rfl, List.length_nil,
        Int.ofNat_zero, neg_zero, zero_add]
      have hval : -(Int.ofNat m.natAbs) = m := by
        simp only [Int.ofNat_eq_natCast]
        omega
      rw [hval]
      simp
    · rw [show intChars m = natChars m.toNat from by rw [intChars, if_neg hm]]
      rw [pNumber_natChars, pNumIp_natChars _ _ _ htail,
        pNumFrac_skip htaildot, pNumExpPart_cons, if_pos (Or.inl rfl),
        pNumExpDigits_intChars _ _ _ _ hnodig]
      obtain ⟨_, hv, _⟩ := natChars_spec m.toNat
      simp only [List.append_nil, hv, List.length_nil,
        Int.ofNat_zero, neg_zero, zero_add]
      have hval : Int.ofNat m.toNat = m := by
        simp only [Int.ofNat_eq_natCast]
        omega
      rw [if_neg Bool.false_ne_true, hval]
      simp

/-! ### Round trip: string literals. -/

theorem hexVal_toHex1 {n : Nat} (h : n < 16) : hexVal (toHex1 n) = some n := by
  interval_cases n <;> decide

theorem pStrChars_esc_quote (r : List Char) :
    pStrChars ('\\' :: '"' :: r)
      = (pStrChars r).map (fun p => ('"' :: p.1, p.2)) := rfl

theorem pStrChars_esc_bslash (r : List Char) :
    pStrChars ('\\' :: '\\' :: r)
      = (pStrChars r).map (fun p => ('\\' :: p.1, p.2)) := rfl

theorem pStrChars_esc_b (r : List Char) :
    pStrChars ('\\' :: 'b' :: r)
      = (pStrChars r).map (fun p => ('\x08' :: p.1, p.2)) := rfl

theorem pStrChars_esc_f (r : List Char) :
    pStrChars ('\\' :: 'f' :: r)
      = (pStrChars r).map (fun p => ('\x0c' :: p.1, p.2)) := rfl

theorem pStrChars_esc_n (r : List Char) :
    pStrChars ('\\' :: 'n' :: r)
      = (pStrChars r).map (fun p => ('\n' :: p.1, p.2)) := rfl

theorem pStrChars_esc_r (r : List Char) :
    pStrChars ('\\' :: 'r' :: r)
      = (pStrChars r).map (fun p => ('\r' :: p.1, p.2)) := rfl

theorem pStrChars_esc_t (r : List Char) :
    pStrChars ('\\' :: 't' :: r)
      = (pStrChars r).map (fun p => ('\t' :: p.1, p.2)) := rfl

set_option maxHeartbeats 1000000 in
theorem pStrChars_esc_ctrl (c : Char) (r : List Char) (h : c.toNat < 0x20) :
    pStrChars ('\\' :: 'u' :: '0' :: '0' ::
        toHex1 (c.toNat / 16) :: toHex1 (c.toNat % 16) :: r)
      = (pStrChars r).map (fun p => (c :: p.1, p.2)) := by
  have hd1 : c.toNat / 16 < 16 := by omega
  have hd0 : c.toNat % 16 < 16 := by omega
  have h0 : hexVal '0' = some 0 := by decide
  simp only [pStrChars, h0, hexVal_toHex1 hd1, hexVal_toHex1 hd0]
  rw [if_pos (by omega)]
  have hval : ((0 * 16 + 0) * 16 + c.toNat / 16) * 16 + c.toNat % 16
      = c.toNat := by omega
  rw [hval, Char.ofNat_toNat]

theorem pStrChars_plain {c : Char} (l : List Char) (h1 : c ≠ '"')
    (h2 : c ≠ '\\') (h3 : ¬c.toNat < 0x20) :
    pStrChars (c :: l) = (pStrChars l).map (fun p => (c :: p.1, p.2)) := by
  rw [pStrChars.eq_def]
  split <;> simp_all

theorem escBody_rt : ∀ (cs rest : List Char),
    pStrChars (escBody cs ++ '"' :: rest) = some (cs, rest) := by
  intro cs
  induction cs with
  | nil => intro rest; rfl
  | cons c tl ih =>
    intro rest
    show pStrChars ((escChar c ++ escBody tl) ++ '"' :: rest) = _
    rw [List.append_assoc]
    unfold escChar
    by_cases hq : c = '"'
    · subst hq
      rw [if_pos rfl]
      simp only [List.cons_append, List.nil_append]
      rw [pStrChars_esc_quote, ih]
      rfl
    · rw [if_neg hq]
      by_cases hb : c = '\\'
      · subst hb
        rw [if_pos rfl]
        simp only [List.cons_append, List.nil_append]
        rw [pStrChars_esc_bslash, ih]
        rfl
      · rw [if_neg hb]
        by_cases h8 : c = '\x08'
        · subst h8
          rw [if_pos rfl]
          simp only [List.cons_append, List.nil_append]
          rw [pStrChars_esc_b, ih]
          rfl
        · rw [if_neg h8]
          by_cases hc : c = '\x0c'
          · subst hc
            rw [if_pos rfl]
            simp only [List.cons_append, List.nil_append]
            rw [pStrChars_esc_f, ih]
            rfl
          · rw [if_neg hc]
            by_cases hn : c = '\n'
            · subst hn
              rw [if_pos rfl]
              simp only [List.cons_append, List.nil_append]
              rw [pStrChars_esc_n, ih]
              rfl
            · rw [if_neg hn]
              by_cases hr : c = '\r'
              · subst hr
                rw [if_pos rfl]
                simp only [List.cons_append, List.nil_append]
                rw [pStrChars_esc_r, ih]
                rfl
              · rw [if_neg hr]
                by_cases ht : c = '\t'
                · subst ht
                  rw [if_pos rfl]
                  simp only [List.cons_append, List.nil_append]
                  rw [pStrChars_esc_t, ih]
                  rfl
                · rw [if_neg ht]
                  by_cases hu : c.toNat < 0x20
                  · rw [if_pos hu]
                    simp only [List.cons_append, List.nil_append]
                    rw [pStrChars_esc_ctrl c _ hu, ih]
                    rfl
                  · rw [if_neg hu]
                    simp only [List.cons_append, List.nil_append]
                    rw [pStrChars_plain _ hq hb hu, ih]
                    rfl

/-! ### Round trip: duplicate-key collapse. -/

/-- Concatenation of member lists. -/
def mAppend : JMembers → JMembers → JMembers
  | JMembers.nil, ms => ms
  | JMembers.cons k v tl, ms => JMembers.cons k v (mAppend tl ms)

/-- All member values are well-formed (keys may repeat): what holds of the
raw member list before the dict collapse. -/
def wfMvals : JMembers → Bool
  | JMembers.nil => true
  | JMembers.cons _ v tl => wfV v && wfMvals tl

/-- Pairwise distinct keys at this level only. -/
def mTopNodup : JMembers → Bool
  | JMembers.nil => true
  | JMembers.cons k _ tl => !mHasKey tl k && mTopNodup tl

/-- Induction on a member list alone (the values stay opaque), usable where
the mutual recursor of the inductive family is not. -/
theorem jmInd {motive : JMembers → Prop} (hnil : motive JMembers.nil)
    (hcons : ∀ k v tl, motive tl → motive (JMembers.cons k v tl)) :
    ∀ ms, motive ms
  | JMembers.nil => hnil
  | JMembers.cons k v tl => hcons k v tl (jmInd hnil hcons tl)

theorem mAppend_nil (ms : JMembers) : mAppend ms JMembers.nil = ms := by
  induction ms using jmInd with
  | hnil => rfl
  | hcons k v tl ih => simp [mAppend, ih]

theorem mAppend_assoc (a b c : JMembers) :
    mAppend (mAppend a b) c = mAppend a (mAppend b c) := by
  induction a using jmInd with
  | hnil => rfl
  | hcons k v tl ih => simp [mAppend, ih]

theorem mHasKey_mAppend (a b : JMembers) (k : String) :
    mHasKey (mAppend a b) k = (mHasKey a k || mHasKey b k) := by
  induction a using jmInd with
  | hnil => simp [mAppend, mHasKey]
  | hcons k1 v1 tl ih => simp [mAppend, mHasKey, ih, Bool.or_assoc]

theorem mInsert_fresh (acc : JMembers) (k : String) (v : JValue)
    (h : mHasKey acc k = false) :
    mInsert acc k v = mAppend acc (JMembers.cons k v JMembers.nil) := by
  induction acc using jmInd with
  | hnil => rfl
  | hcons k1 v1 tl ih =>
    simp only [mHasKey, Bool.or_eq_false_iff] at h
    obtain ⟨h1, h2⟩ := h
    simp only [mInsert, mAppend]
    rw [if_neg (by simpa using h1), ih h2]

theorem mHasKey_mInsert (acc : JMembers) (k : String) (v : JValue)
    (k' : String) :
    mHasKey (mInsert acc k v) k' = (mHasKey acc k' || decide (k = k')) := by
  induction acc using jmInd with
  | hnil => simp [mInsert, mHasKey]
  | hcons k1 v1 tl ih =>
    simp only [mInsert]
    by_cases h : k1 = k
    · subst h
      rw [if_pos rfl]
      simp only [mHasKey]
      by_cases hk : k1 = k' <;> simp [hk]
    · rw [if_neg h]
      simp [mHasKey, ih, Bool.or_assoc]

theorem mInsert_wfM (acc : JMembers) (k : String) (v : JValue)
    (ha : wfM acc = true) (hv : wfV v = true) :
    wfM (mInsert acc k v) = true := by
  induction acc using jmInd with
  | hnil => simp [mInsert, wfM, mHasKey, hv]
  | hcons k1 v1 tl ih =>
    simp only [wfM, Bool.and_eq_true, Bool.not_eq_true'] at ha
    obtain ⟨⟨h1, h2⟩, h3⟩ := ha
    simp only [mInsert]
    by_cases h : k1 = k
    · subst h
      rw [if_pos rfl]
      simp only [wfM, Bool.and_eq_true, Bool.not_eq_true']
      exact ⟨⟨h1, hv⟩, h3⟩
    · rw [if_neg h]
      simp only [wfM, Bool.and_eq_true, Bool.not_eq_true']
      refine ⟨⟨?_, h2⟩, ih h3⟩
      rw [mHasKey_mInsert]
      have hkk : decide (k = k1) = false := by
        simp
        exact fun he => h he.symm
      simp [h1, hkk]

theorem mCollapseGo_wfM : ∀ (ms acc : JMembers), wfM acc = true →
    wfMvals ms = true → wfM (mCollapseGo acc ms) = true := by
  intro ms
  induction ms using jmInd with
  | hnil => intro acc ha _; exact ha
  | hcons k v tl ih =>
    intro acc ha hm
    simp only [wfMvals, Bool.and_eq_true] at hm
    simp only [mCollapseGo]
    exact ih _ (mInsert_wfM acc k v ha hm.1) hm.2

theorem mCollapse_wfM (ms : JMembers) (h : wfMvals ms = true) :
    wfM (mCollapse ms) = true :=
  mCollapseGo_wfM ms JMembers.nil rfl h

theorem mCollapseGo_disjoint : ∀ (ms acc : JMembers), mTopNodup ms = true →
    (∀ k, mHasKey ms k = true → mHasKey acc k = false) →
    mCollapseGo acc ms = mAppend acc ms := by
  intro ms
  induction ms using jmInd with
  | hnil =>
    intro acc _ _
    rw [mAppend_nil]
    rfl
  | hcons k v tl ih =>
    intro acc hnd hdisj
    simp only [mTopNodup, Bool.and_eq_true, Bool.not_eq_true'] at hnd
    obtain ⟨hk, hnd'⟩ := hnd
    have hacck : mHasKey acc k = false := hdisj k (by simp [mHasKey])
    simp only [mCollapseGo]
    have hdisj2 : ∀ k', mHasKey tl k' = true →
        mHasKey (mInsert acc k v) k' = false := by
      intro k' hk'
      rw [mHasKey_mInsert]
      have h1 : mHasKey acc k' = false := hdisj k' (by simp [mHasKey, hk'])
      have h2 : decide (k = k') = false := by
        simp
        intro he
        subst he
        rw [hk'] at hk
        cases hk
      simp [h1, h2]
    rw [ih (mInsert acc k v) hnd' hdisj2, mInsert_fresh acc k v hacck,
      mAppend_assoc]
    rfl

theorem mCollapse_self (ms : JMembers) (h : mTopNodup ms = true) :
    mCollapse ms = ms := by
  unfold mCollapse
  rw [mCollapseGo_disjoint ms JMembers.nil h (fun k _ => rfl)]
  rfl

theorem wfM_topNodup : ∀ {ms : JMembers}, wfM ms = true → mTopNodup ms = true := by
  intro ms
  induction ms using jmInd with
  | hnil => intro _; rfl
  | hcons k v tl ih =>
    intro h
    simp only [wfM, Bool.and_eq_true] at h
    simp only [mTopNodup, Bool.and_eq_true]
    exact ⟨h.1.1, ih h.2⟩

theorem wfM_vals : ∀ {ms : JMembers}, wfM ms = true → wfMvals ms = true := by
  intro ms
  induction ms using jmInd with
  | hnil => intro _; rfl
  | hcons k v tl ih =>
    intro h
    simp only [wfM, Bool.and_eq_true] at h
    simp only [wfMvals, Bool.and_eq_true]
    exact ⟨h.1.2, ih h.2⟩

/-! ### Round trip: fuel accounting and token heads. -/

mutual
theorem fuelV_le_dump : ∀ v : JValue, fuelV v ≤ (dumpV v).length + 1
  | JValue.null => by simp [fuelV, dumpV]
  | JValue.bool true => by simp [fuelV, dumpV]
  | JValue.bool false => by simp [fuelV, dumpV]
  | JValue.num m e => by simp only [fuelV]; omega
  | JValue.str s => by simp only [fuelV]; omega
  | JValue.arr JList.nil => by simp [fuelV, dumpV]
  | JValue.arr (JList.cons v tl) => by
    have h := fuelL_le_dump (JList.cons v tl)
    simp only [fuelV, fuelL, dumpV, dumpL, List.length_cons,
      List.length_append] at *
    omega
  | JValue.obj JMembers.nil => by simp [fuelV, dumpV]
  | JValue.obj (JMembers.cons k v tl) => by
    have h := fuelM_le_dump (JMembers.cons k v tl)
    simp only [fuelV, fuelM, dumpV, dumpM, dumpStr, List.length_cons,
      List.length_append] at *
    omega

theorem fuelL_le_dump : ∀ xs : JList, fuelL xs ≤ (dumpL xs).length
  | JList.nil => by simp [fuelL, dumpL]
  | JList.cons v tl => by
    have h1 := fuelV_le_dump v
    have h2 := fuelL_le_dump tl
    simp only [fuelL, dumpL, List.length_cons, List.length_append] at *
    omega

theorem fuelM_le_dump : ∀ ms : JMembers, fuelM ms ≤ (dumpM ms).length
  | JMembers.nil => by simp [fuelM, dumpM]
  | JMembers.cons k v tl => by
    have h1 := fuelV_le_dump v
    have h2 := fuelM_le_dump tl
    simp only [fuelM, dumpM, dumpStr, List.length_cons,
      List.length_append] at *
    omega
end

theorem fuelV_pos (v : JValue) : 1 ≤ fuelV v := by
  cases v with
  | null => simp [fuelV]
  | bool b => simp [fuelV]
  | num m e => simp [fuelV]
  | str s => simp [fuelV]
  | arr xs => cases xs <;> simp [fuelV]
  | obj ms => cases ms <;> simp [fuelV]

theorem pVal_ws (f : Nat) {c : Char} (l : List Char) (h : jsonWs c = true) :
    pVal f (c :: l) = pVal f l := by
  cases f with
  | zero => rfl
  | succ g =>
    simp only [pVal]
    rw [skipWs_cons_ws l h]

theorem pItems_ws (f : Nat) {c : Char} (l : List Char) (h : jsonWs c = true) :
    pItems f (c :: l) = pItems f l := by
  cases f with
  | zero => rfl
  | succ g =>
    simp only [pItems]
    rw [pVal_ws g l h]

theorem pMembers_ws (f : Nat) {c : Char} (l : List Char) (h : jsonWs c = true) :
    pMembers f (c :: l) = pMembers f l := by
  cases f with
  | zero => rfl
  | succ g =>
    simp only [pMembers]
    rw [skipWs_cons_ws l h]

theorem numSafe_dumpL (tl : JList) (rest : List Char) :
    numSafe (dumpL tl ++ ']' :: rest) := by
  cases tl with
  | nil =>
    simp only [dumpL, List.nil_append]
    exact ⟨by decide, by decide, by decide, by decide⟩
  | cons v tl2 =>
    simp only [dumpL, List.cons_append]
    exact ⟨by decide, by decide, by decide, by decide⟩

theorem numSafe_dumpM (ms : JMembers) (rest : List Char) :
    numSafe (dumpM ms ++ '\x7d' :: rest) := by
  cases ms with
  | nil =>
    simp only [dumpM, List.nil_append]
    exact ⟨by decide, by decide, by decide, by decide⟩
  | cons k v tl =>
    simp only [dumpM, List.cons_append]
    exact ⟨by decide, by decide, by decide, by decide⟩

theorem isDig_not_jsonWs {c : Char} (h : isDig c = true) : jsonWs c = false := by
  by_contra hws
  have hws2 : jsonWs c = true := by simpa using hws
  have hmem : c ∈ jsonWsChars := of_decide_eq_true hws2
  fin_cases hmem <;> exact absurd h (by decide)

theorem intChars_head (i : Int) :
    ∃ c cs, intChars i = c :: cs ∧ (c = '-' ∨ isDig c = true) := by
  unfold intChars
  by_cases h : i < 0
  · rw [if_pos h]
    exact ⟨'-', _, rfl, Or.inl rfl⟩
  · rw [if_neg h]
    obtain ⟨hd, _, c, cs, hc, _, _⟩ := natChars_spec i.toNat
    exact ⟨c, cs, hc, Or.inr (hd c (by rw [hc]; exact List.mem_cons_self c cs))⟩

theorem dumpNum_head (m e : Int) :
    ∃ c cs, dumpNum m e = c :: cs ∧ (c = '-' ∨ isDig c = true) := by
  unfold dumpNum
  obtain ⟨c, cs, hc, hor⟩ := intChars_head m
  by_cases he : e = 0
  · rw [if_pos he]
    exact ⟨c, cs, hc, hor⟩
  · rw [if_neg he, hc]
    exact ⟨c, cs ++ 'e' :: intChars e, rfl, hor⟩

theorem dumpV_head (v : JValue) :
    ∃ c cs, dumpV v = c :: cs ∧ jsonWs c = false ∧ c ≠ ']' ∧ c ≠ '\x7d' := by
  cases v with
  | null => exact ⟨'n', _, rfl, by decide, by decide, by decide⟩
  | bool b =>
    cases b with
    | false => exact ⟨'f', _, rfl, by decide, by decide, by decide⟩
    | true => exact ⟨'t', _, rfl, by decide, by decide, by decide⟩
  | num m e =>
    obtain ⟨c, cs, hc, hor⟩ := dumpNum_head m e
    refine ⟨c, cs, hc, ?_, ?_, ?_⟩
    · rcases hor with h | h
      · subst h; decide
      · exact isDig_not_jsonWs h
    · rcases hor with h | h
      · subst h; decide
      · exact ne_of_isDig h (by decide)
    · rcases hor with h | h
      · subst h; decide
      · exact ne_of_isDig h (by decide)
  | str s => exact ⟨'"', _, rfl, by decide, by decide, by decide⟩
  | arr xs =>
    cases xs with
    | nil => exact ⟨'[', _, rfl, by decide, by decide, by decide⟩
    | cons v tl => exact ⟨'[', _, rfl, by decide, by decide, by decide⟩
  | obj ms =>
    cases ms with
    | nil => exact ⟨'\x7b', _, rfl, by decide, by decide, by decide⟩
    | cons k v tl => exact ⟨'\x7b', _, rfl, by decide, by decide, by decide⟩

/-- Every value produced by the parser is well-formed: all dicts in it have
pairwise distinct keys (the collapse guarantees it). -/
theorem wf_parse : ∀ f : Nat,
    (∀ l v r, pVal f l = some (v, r) → wfV v = true) ∧
    (∀ l xs r, pItems f l = some (xs, r) → wfL xs = true) ∧
    (∀ l ms r, pMembers f l = some (ms, r) → wfMvals ms = true) := by
  intro f
  induction f with
  | zero =>
    refine ⟨?_, ?_, ?_⟩ <;> (intro l a r h; simp [pVal, pItems, pMembers] at h)
  | succ f ih =>
    obtain ⟨ihV, ihL, ihM⟩ := ih
    refine ⟨?_, ?_, ?_⟩
    · intro l v r h
      simp only [pVal] at h
      split at h
      · exact absurd h (by simp)
      · split_ifs at h
        · -- object
          split at h
          · simp only [Option.some.injEq, Prod.mk.injEq] at h
            rw [← h.1]
            decide
          · rw [Option.map_eq_some'] at h
            obtain ⟨p, hp1, hp2⟩ := h
            simp only [Prod.mk.injEq] at hp2
            rw [← hp2.1]
            simp only [wfV]
            exact mCollapse_wfM _ (ihM _ _ _ hp1)
        · -- array
          split at h
          · simp only [Option.some.injEq, Prod.mk.injEq] at h
            rw [← h.1]
            decide
          · rw [Option.map_eq_some'] at h
            obtain ⟨p, hp1, hp2⟩ := h
            simp only [Prod.mk.injEq] at hp2
            rw [← hp2.1]
            simp only [wfV]
            exact ihL _ _ _ hp1
        · -- string
          rw [Option.map_eq_some'] at h
          obtain ⟨p, hp1, hp2⟩ := h
          simp only [Prod.mk.injEq] at hp2
          rw [← hp2.1]
          rfl
        · -- true
          split at h
          · simp only [Option.some.injEq, Prod.mk.injEq] at h
            rw [← h.1]
            decide
          · exact absurd h (by simp)
        · -- false
          split at h
          · simp only [Option.some.injEq, Prod.mk.injEq] at h
            rw [← h.1]
            decide
          · exact absurd h (by simp)
        · -- null
          split at h
          · simp only [Option.some.injEq, Prod.mk.injEq] at h
            rw [← h.1]
            decide
          · exact absurd h (by simp)
        · -- number
          rw [Option.map_eq_some'] at h
          obtain ⟨p, hp1, hp2⟩ := h
          simp only [Prod.mk.injEq] at hp2
          rw [← hp2.1]
          rfl
    · intro l xs r h
      simp only [pItems] at h
      split at h
      · exact absurd h (by simp)
      · rename_i p heqV
        split at h
        · rw [Option.map_eq_some'] at h
          obtain ⟨q, hq1, hq2⟩ := h
          simp only [Prod.mk.injEq] at hq2
          rw [← hq2.1]
          simp only [wfL, Bool.and_eq_true]
          exact ⟨ihV _ _ _ heqV, ihL _ _ _ hq1⟩
        · simp only [Option.some.injEq, Prod.mk.injEq] at h
          rw [← h.1]
          simp only [wfL, Bool.and_eq_true]
          exact ⟨ihV _ _ _ heqV, trivial⟩
        · exact absurd h (by simp)
    · intro l ms r h
      simp only [pMembers] at h
      split at h
      · split at h
        · exact absurd h (by simp)
        · rename_i pk heqK
          split at h
          · split at h
            · exact absurd h (by simp)
            · rename_i pv heqV
              split at h
              · rw [Option.map_eq_some'] at h
                obtain ⟨q, hq1, hq2⟩ := h
                simp only [Prod.mk.injEq] at hq2
                rw [← hq2.1]
                simp only [wfMvals, Bool.and_eq_true]
                exact ⟨ihV _ _ _ heqV, ihM _ _ _ hq1⟩
              · simp only [Option.some.injEq, Prod.mk.injEq] at h
                rw [← h.1]
                simp only [wfMvals, Bool.and_eq_true]
                exact ⟨ihV _ _ _ heqV, trivial⟩
              · exact absurd h (by simp)
          · exact absurd h (by simp)
      · exact absurd h (by simp)

/-- Specialized whitespace facts for the token heads of serialized values. -/
theorem skipWs_quote (l : List Char) : skipWs ('"' :: l) = '"' :: l :=
  skipWs_cons_not l (by decide)

theorem skipWs_lbrace (l : List Char) : skipWs ('\x7b' :: l) = '\x7b' :: l :=
  skipWs_cons_not l (by decide)

theorem skipWs_lbrack (l : List Char) : skipWs ('[' :: l) = '[' :: l :=
  skipWs_cons_not l (by decide)

theorem skipWs_rbrack (l : List Char) : skipWs (']' :: l) = ']' :: l :=
  skipWs_cons_not l (by decide)

theorem skipWs_rbrace (l : List Char) : skipWs ('\x7d' :: l) = '\x7d' :: l :=
  skipWs_cons_not l (by decide)

theorem skipWs_comma (l : List Char) : skipWs (',' :: l) = ',' :: l :=
  skipWs_cons_not l (by decide)

theorem skipWs_colon (l : List Char) : skipWs (':' :: l) = ':' :: l :=
  skipWs_cons_not l (by decide)

theorem pVal_space (f : Nat) (l : List Char) : pVal f (' ' :: l) = pVal f l :=
  pVal_ws f l (by decide)

theorem pItems_space (f : Nat) (l : List Char) :
    pItems f (' ' :: l) = pItems f l :=
  pItems_ws f l (by decide)

theorem pMembers_space (f : Nat) (l : List Char) :
    pMembers f (' ' :: l) = pMembers f l :=
  pMembers_ws f l (by decide)

/-- The parser inverts the serializer on well-formed values, given enough
fuel. -/
theorem rt_parse : ∀ f : Nat,
    (∀ v rest, wfV v = true → fuelV v ≤ f → numSafe rest →
      pVal f (dumpV v ++ rest) = some (v, rest)) ∧
    (∀ v tl rest, wfV v = true → wfL tl = true →
      fuelL (JList.cons v tl) ≤ f →
      pItems f (dumpV v ++ (dumpL tl ++ ']' :: rest))
        = some (JList.cons v tl, rest)) ∧
    (∀ k v tl rest, wfV v = true → wfMvals tl = true →
      fuelM (JMembers.cons k v tl) ≤ f →
      pMembers f (dumpStr k ++ ':' :: ' ' ::
          (dumpV v ++ (dumpM tl ++ '\x7d' :: rest)))
        = some (JMembers.cons k v tl, rest)) := by
  intro f
  induction f with
  | zero =>
    refine ⟨?_, ?_, ?_⟩
    · intro v rest _ hfu _
      exact absurd hfu (by have := fuelV_pos v; omega)
    · intro v tl rest _ _ hfu
      exact absurd hfu (by simp only [fuelL]; omega)
    · intro k v tl rest _ _ hfu
      exact absurd hfu (by simp only [fuelM]; omega)
  | succ f ih =>
    obtain ⟨ihV, ihL, ihM⟩ := ih
    refine ⟨?_, ?_, ?_⟩
    · intro v rest hwf hfu hsafe
      cases v with
      | null => rfl
      | bool b => cases b <;> rfl
      | num m e =>
        obtain ⟨c, cs, hc, hor⟩ := dumpNum_head m e
        have hjws : jsonWs c = false := by
          rcases hor with h | h
          · subst h; decide
          · exact isDig_not_jsonWs h
        have h1 : c ≠ '\x7b' := by
          rcases hor with h | h
          · subst h; decide
          · exact ne_of_isDig h (by decide)
        have h2 : c ≠ '[' := by
          rcases hor with h | h
          · subst h; decide
          · exact ne_of_isDig h (by decide)
        have h3 : c ≠ '"' := by
          rcases hor with h | h
          · subst h; decide
          · exact ne_of_isDig h (by decide)
        have h4 : c ≠ 't' := by
          rcases hor with h | h
          · subst h; decide
          · exact ne_of_isDig h (by decide)
        have h5 : c ≠ 'f' := by
          rcases hor with h | h
          · subst h; decide
          · exact ne_of_isDig h (by decide)
        have h6 : c ≠ 'n' := by
          rcases hor with h | h
          · subst h; decide
          · exact ne_of_isDig h (by decide)
        show pVal (f + 1) (dumpNum m e ++ rest) = some (JValue.num m e, rest)
        rw [hc, List.cons_append]
        simp only [pVal, skipWs_cons_not (cs ++ rest) hjws, if_neg h1,
          if_neg h2, if_neg h3, if_neg h4, if_neg h5, if_neg h6]
        rw [← List.cons_append, ← hc, dumpNum_rt m e rest hsafe]
        rfl
      | str s =>
        show pVal (f + 1)
          (('"' :: (escBody s.data ++ ['"'])) ++ rest) = some (JValue.str s, rest)
        rw [List.cons_append]
        simp only [pVal, skipWs_quote, if_neg (by decide : ¬('"' : Char) = '\x7b'),
          if_neg (by decide : ¬('"' : Char) = '['), if_true,
          List.append_assoc, List.singleton_append, escBody_rt]
        rfl
      | arr xs =>
        cases xs with
        | nil => rfl
        | cons v tl =>
          have hwf2 : wfV v = true ∧ wfL tl = true := by
            simp only [wfV, wfL, Bool.and_eq_true] at hwf
            exact hwf
          have hfu2 : fuelL (JList.cons v tl) ≤ f := by
            simp only [fuelV] at hfu
            omega
          show pVal (f + 1)
            (('[' :: (dumpV v ++ dumpL tl ++ [']'])) ++ rest)
              = some (JValue.arr (JList.cons v tl), rest)
          rw [List.cons_append]
          simp only [pVal, skipWs_lbrack,
            if_neg (by decide : ¬('[' : Char) = '\x7b'), if_true]
          have harr : (dumpV v ++ dumpL tl ++ [']']) ++ rest
              = dumpV v ++ (dumpL tl ++ ']' :: rest) := by simp
          rw [harr]
          obtain ⟨c, cs, hcv, hjws, hne1, hne2⟩ := dumpV_head v
          have hskip : skipWs (dumpV v ++ (dumpL tl ++ ']' :: rest))
              = c :: (cs ++ (dumpL tl ++ ']' :: rest)) := by
            rw [hcv, List.cons_append]
            exact skipWs_cons_not _ hjws
          rw [hskip]
          split
          · rename_i r2 heq
            injection heq with heq1 _
            exact absurd heq1 hne1
          · rw [ihL v tl rest hwf2.1 hwf2.2 hfu2]
            rfl
      | obj ms =>
        cases ms with
        | nil => rfl
        | cons k v tl =>
          simp only [wfV] at hwf
          have htop : mTopNodup (JMembers.cons k v tl) = true := wfM_topNodup hwf
          have hvals : wfMvals (JMembers.cons k v tl) = true := wfM_vals hwf
          have hwfv : wfV v = true ∧ wfMvals tl = true := by
            simp only [wfMvals, Bool.and_eq_true] at hvals
            exact hvals
          have hfu2 : fuelM (JMembers.cons k v tl) ≤ f := by
            simp only [fuelV] at hfu
            omega
          show pVal (f + 1)
            (('\x7b' :: (dumpStr k ++ ':' :: ' ' ::
              (dumpV v ++ dumpM tl ++ ['\x7d']))) ++ rest)
              = some (JValue.obj (JMembers.cons k v tl), rest)
          rw [List.cons_append]
          simp only [pVal, skipWs_lbrace, if_true]
          have hobj : (dumpStr k ++ ':' :: ' ' ::
              (dumpV v ++ dumpM tl ++ ['\x7d'])) ++ rest
              = dumpStr k ++ ':' :: ' ' ::
                (dumpV v ++ (dumpM tl ++ '\x7d' :: rest)) := by simp
          rw [hobj]
          have hskip : skipWs (dumpStr k ++ ':' :: ' ' ::
              (dumpV v ++ (dumpM tl ++ '\x7d' :: rest)))
              = '"' :: (escBody k.data ++ ['"'] ++ ':' :: ' ' ::
                (dumpV v ++ (dumpM tl ++ '\x7d' :: rest))) :=
            skipWs_cons_not _ (by decide)
          rw [hskip]
          split
          · rename_i r2 heq
            injection heq with heq1 _
            exact absurd heq1 (by decide)
          · rw [ihM k v tl rest hwfv.1 hwfv.2 hfu2]
            simp only [Option.map_some']
            rw [mCollapse_self _ htop]
    · intro v tl rest hwfv hwftl hfu
      have hfuv : fuelV v ≤ f := by
        simp only [fuelL] at hfu
        omega
      simp only [pItems,
        ihV v (dumpL tl ++ ']' :: rest) hwfv hfuv (numSafe_dumpL tl rest)]
      cases tl with
      | nil =>
        simp only [dumpL, List.nil_append, skipWs_rbrack]
      | cons v2 tl2 =>
        have hwf2 : wfV v2 = true ∧ wfL tl2 = true := by
          simp only [wfL, Bool.and_eq_true] at hwftl
          exact hwftl
        have hfu2 : fuelL (JList.cons v2 tl2) ≤ f := by
          simp only [fuelL] at hfu ⊢
          omega
        simp only [dumpL, List.cons_append, skipWs_comma, pItems_space]
        rw [show (dumpV v2 ++ dumpL tl2) ++ ']' :: rest
            = dumpV v2 ++ (dumpL tl2 ++ ']' :: rest) from by simp]
        rw [ihL v2 tl2 rest hwf2.1 hwf2.2 hfu2]
        rfl
    · intro k v tl rest hwfv hwfvals hfu
      have hfuv : fuelV v ≤ f := by
        simp only [fuelM] at hfu
        omega
      show pMembers (f + 1)
        (('"' :: (escBody k.data ++ ['"'])) ++ ':' :: ' ' ::
          (dumpV v ++ (dumpM tl ++ '\x7d' :: rest)))
          = some (JMembers.cons k v tl, rest)
      rw [List.cons_append]
      simp only [pMembers, skipWs_quote, List.append_assoc,
        List.singleton_append, escBody_rt, skipWs_colon, pVal_space,
        ihV v (dumpM tl ++ '\x7d' :: rest) hwfv hfuv (numSafe_dumpM tl rest)]
      cases tl with
      | nil =>
        simp only [dumpM, List.nil_append, skipWs_rbrace]
      | cons k2 v2 tl2 =>
        have hwf2 : wfV v2 = true ∧ wfMvals tl2 = true := by
          simp only [wfMvals, Bool.and_eq_true] at hwfvals
          exact hwfvals
        have hfu2 : fuelM (JMembers.cons k2 v2 tl2) ≤ f := by
          simp only [fuelM] at hfu ⊢
          omega
        simp only [dumpM, List.cons_append, skipWs_comma, pMembers_space]
        rw [show (dumpStr k2 ++ ':' :: ' ' :: (dumpV v2 ++ dumpM tl2))
              ++ '\x7d' :: rest
            = dumpStr k2 ++ ':' :: ' ' ::
              (dumpV v2 ++ (dumpM tl2 ++ '\x7d' :: rest)) from by simp]
        rw [ihM k2 v2 tl2 rest hwf2.1 hwf2.2 hfu2]
        rfl

/-- Witness for C10 at a concrete input with a `\x7b` and no `\x7d`. -/
theorem rfind_guard_vacuous_empty_slice_fallback_witness :
    (∀ t : List Char, pyRfind t '\x7d' + 1 ≠ -1) ∧
    pySliceL "ab\x7bcd".data (pyFind "ab\x7bcd".data '\x7b')
      (pyRfind "ab\x7bcd".data '\x7d' + 1) = [] ∧
    loads "" = none ∧
    parse_response "ab\x7bcd"
      = Except.ok (parseFallback "ab\x7bcd" "Could not parse LLM response") :=
  rfind_guard_vacuous_empty_slice_fallback "ab\x7bcd"
    (by decide) (by decide) (by decide)

/-- Values produced by a successful `loads` have nodup keys in every dict:
`json.loads` collapses duplicate keys. -/
theorem loads_wf {s : String} {v : JValue} (h : loads s = some v) :
    wfV v = true := by
  obtain ⟨rest, hp⟩ := loads_some_pVal h
  exact (wf_parse (s.data.length + 1)).1 s.data v rest hp

/-- `json.loads` inverts `json.dumps` on values with nodup keys. -/
theorem loads_dumps (v : JValue) (h : wfV v = true) :
    loads (dumps v) = some v := by
  have hrt := (rt_parse ((dumpV v).length + 1)).1 v [] h (fuelV_le_dump v)
    (by trivial)
  rw [List.append_nil] at hrt
  unfold loads
  rw [show (dumps v).data = dumpV v from rfl, hrt]
  rfl

/-- A serialized object starts with `\x7b` even after `str.strip()`. -/
theorem dumps_obj_starts (ms : JMembers) :
    pyStartsWith (pyStrip (dumps (JValue.obj ms))) '\x7b' = true := by
  cases ms with
  | nil => rfl
  | cons k v tl =>
    have hdw : (dumpV (JValue.obj (JMembers.cons k v tl))).dropWhile pyWs
        = '\x7b' :: (dumpStr k ++ ':' :: ' ' ::
            (dumpV v ++ dumpM tl ++ ['\x7d'])) := by
      rw [show dumpV (JValue.obj (JMembers.cons k v tl))
          = '\x7b' :: (dumpStr k ++ ':' :: ' ' ::
            (dumpV v ++ dumpM tl ++ ['\x7d'])) from rfl]
      rw [List.dropWhile_cons, if_neg (by decide)]
    obtain ⟨t, ht⟩ := pyStripL_head hdw
    have hsd : (pyStrip (dumps (JValue.obj (JMembers.cons k v tl)))).data
        = '\x7b' :: t := ht
    simp only [pyStartsWith, hsd]
    decide

/-- C6: parsing is idempotent on well-formed JSON.  For every string `s`
whose stripped form starts with `\x7b` and that `json.loads` accepts with
value `v`, `_parse_response s` returns exactly `v`, and re-serializing `v`
with `json.dumps` and parsing again with `_parse_response` returns the same
`v`. -/
theorem parse_response_idempotent_on_json (s : String) (v : JValue)
    (hs : pyStartsWith (pyStrip s) '\x7b' = true) (hl : loads s = some v) :
    parse_response s = Except.ok v ∧
      parse_response (dumps v) = Except.ok v := by
  constructor
  · simp only [parse_response, hs, if_true, hl]
  · have hwf : wfV v = true := loads_wf hl
    obtain ⟨ms, hv⟩ := loads_obj_of_strip hl hs
    subst hv
    have hld : loads (dumps (JValue.obj ms)) = some (JValue.obj ms) :=
      loads_dumps _ hwf
    simp only [parse_response, dumps_obj_starts ms, if_true, hld]

/-- Witness for C6 at the concrete object `\x7b"a": 1\x7d`. -/
theorem parse_response_idempotent_on_json_witness :
    parse_response "\x7b\"a\": 1\x7d"
        = Except.ok (mkObj [("a", JValue.num 1 0)]) ∧
      parse_response (dumps (mkObj [("a", JValue.num 1 0)]))
        = Except.ok (mkObj [("a", JValue.num 1 0)]) :=
  parse_response_idempotent_on_json "\x7b\"a\": 1\x7d"
    (mkObj [("a", JValue.num 1 0)]) (by rfl) (by rfl)

end Aish
